import Mathlib

/-!
# MiniGit: a shallow embedding of `minigit.cpp`

The development follows the C++ source function by function.

* Text files are `String`s; `std::getline` is `getlines`.
* `std::map<std::string, std::string>` is an association list kept sorted by key
  (`SMap`), so that iteration visits the keys in increasing order.
* The repository on disk is the record `Repo`: the `HEAD` file, the index file, the
  object directory, the branch directory and the regular files of the working
  directory. Working files are named by their relative path; the commands are followed
  for plain names outside `.minigit`. Beyond plain names, `checkout`, which empties the
  working directory, cannot restore a path through a removed subdirectory
  (`restorable`); `branch` writes nothing below a missing directory and follows a route
  into the object store (`object_route`); `merge` ends without a commit when the
  working directory has a sub-directory.
* Loops that the source does not bound take a fuel argument and return `none` when
  the fuel runs out; every result statement below exhibits the fuel that suffices
  or proves that no amount of fuel does.
-/

namespace MiniGit

/-! ## Diff engine (`diff`, the alignment loop) -/

/-- One output line of `diff`: `"  " line`, `"+ " line` or `"- " line`. -/
inductive DiffRecord where
  | equal (line : String)
  | added (line : String)
  | removed (line : String)
deriving DecidableEq, Repr

/-- The inner search loops of `diff`: is `needle` equal to some `lines[t]`, `t ≥ start`? -/
def found_from (needle : String) (lines : List String) (start : Nat) : Bool :=
  (lines.drop start).any (fun l => needle == l)

/-- The `while (i < lines1.size() || j < lines2.size())` loop of `diff`. -/
def diffLoop (lines1 lines2 : List String) : Nat → Nat → Nat → Option (List DiffRecord)
  | 0, i, j => if i < lines1.length ∨ j < lines2.length then none else some []
  | fuel + 1, i, j =>
    match lines1[i]?, lines2[j]? with
    | some l1, some l2 =>
      if l1 = l2 then
        (diffLoop lines1 lines2 fuel (i + 1) (j + 1)).map (DiffRecord.equal l1 :: ·)
      else
        let found_in_lines2 := found_from l1 lines2 j
        let found_in_lines1 := found_from l2 lines1 i
        if found_in_lines2 && !found_in_lines1 then
          (diffLoop lines1 lines2 fuel i (j + 1)).map (DiffRecord.added l2 :: ·)
        else if !found_in_lines2 && found_in_lines1 then
          (diffLoop lines1 lines2 fuel (i + 1) j).map (DiffRecord.removed l1 :: ·)
        else
          (diffLoop lines1 lines2 fuel (i + 1) (j + 1)).map
            (fun r => DiffRecord.removed l1 :: DiffRecord.added l2 :: r)
    | some l1, none =>
      (diffLoop lines1 lines2 fuel (i + 1) j).map (DiffRecord.removed l1 :: ·)
    | none, some l2 =>
      (diffLoop lines1 lines2 fuel i (j + 1)).map (DiffRecord.added l2 :: ·)
    | none, none => some []

/-- The record list of `diff` on two line sequences; each iteration advances `i` or `j`,
so `lines1.size() + lines2.size()` iterations are supplied. -/
def diff (lines1 lines2 : List String) : Option (List DiffRecord) :=
  diffLoop lines1 lines2 (lines1.length + lines2.length) 0 0

/-- The lines of the `equal` and `removed` records, in output order. -/
def DiffRecord.sideA : List DiffRecord → List String
  | [] => []
  | .equal l :: r => l :: sideA r
  | .removed l :: r => l :: sideA r
  | .added _ :: r => sideA r

/-- The lines of the `equal` and `added` records, in output order. -/
def DiffRecord.sideB : List DiffRecord → List String
  | [] => []
  | .equal l :: r => l :: sideB r
  | .added l :: r => l :: sideB r
  | .removed _ :: r => sideB r

/-! ## Text helpers (`std::getline`, `rfind(p, 0) == 0`, `substr`, `find(" ")`) -/

/-- The lines `std::getline` yields on a character sequence: split at every newline, a
final line without newline counts, nothing follows a trailing newline. -/
def getlinesAux : List Char → List (List Char)
  | [] => []
  | c :: cs =>
    if c = '\n' then [] :: getlinesAux cs
    else
      match getlinesAux cs with
      | [] => [[c]]
      | l :: ls => (c :: l) :: ls

/-- All lines of a file, as the loop `while (std::getline(file, line))` sees them. -/
def getlines (content : String) : List String :=
  (getlinesAux content.data).map String.mk

/-- The test `line.rfind(pre, 0) == 0`: `line` starts with `pre`. -/
def starts_with (line pre : String) : Bool :=
  pre.data.isPrefixOf line.data

/-- The call `line.substr(n)`. -/
def substr_from (line : String) (n : Nat) : String :=
  String.mk (line.data.drop n)

/-- The position test `line.find(" ") != std::string::npos`. -/
def has_space (line : String) : Bool :=
  line.data.contains ' '

/-- The call `line.substr(0, line.find(" "))`. -/
def before_space (line : String) : String :=
  String.mk (line.data.takeWhile (· != ' '))

/-- The call `line.substr(line.find(" ") + 1)`. -/
def after_space (line : String) : String :=
  String.mk ((line.data.dropWhile (· != ' ')).drop 1)

/-! ## Content hasher (`sha1.cpp`) -/

/-- Rotation of a 32-bit word: `(n << rotate) | (n >> (32 - rotate))` on `uint32_t`. -/
def leftRotate32bits (n rotate : Nat) : Nat :=
  ((n <<< rotate) % 2 ^ 32) ||| (n >>> (32 - rotate))

/-- The table `hexChars` of `sig2hex`. -/
def hexChars : List Char := "0123456789abcdef".data

/-- Hex rendering of a 20-byte signature (`sig2hex`). -/
def sig2hex (sig : List Nat) : String :=
  (List.range 20).foldl
    (fun hex i =>
      (hex.push (hexChars.getD (((sig.getD i 0) >>> 4) &&& 0xF) '0')).push
        (hexChars.getD ((sig.getD i 0) &&& 0xF) '0'))
    ""

/-- Reference notion for the round trip: the value of a hexadecimal digit, its position in
`hexChars`. -/
def hex_value (c : Char) : Nat := hexChars.indexOf c

/-- Reference notion for the round trip: decoding of a hex string, two digits per byte, the
high nibble first. -/
def hex_decode : List Char → List Nat
  | hi :: lo :: rest => (hex_value hi * 16 + hex_value lo) :: hex_decode rest
  | _ => []

/-- The message schedule of one 64-byte chunk: `blocks[0..15]` read big-endian from the
padded message, `blocks[16..79]` by the rotation recurrence. -/
def sha1_schedule (padded : List Nat) (chunk : Nat) : List Nat :=
  let first16 := (List.range 16).map fun bid =>
    (List.range 4).foldl
      (fun w cid => ((w <<< 8) % 2 ^ 32 + padded.getD (chunk * 64 + bid * 4 + cid) 0) % 2 ^ 32)
      0
  (List.range 64).foldl
    (fun blocks k =>
      let i := k + 16
      blocks ++ [leftRotate32bits
        (blocks.getD (i - 3) 0 ^^^ blocks.getD (i - 8) 0 ^^^ blocks.getD (i - 14) 0 ^^^
          blocks.getD (i - 16) 0) 1])
    first16

/-- One iteration of the 80-round loop on the working variables `(a, b, c, d, e)`. -/
def sha1_round (blocks : List Nat) (s : Nat × Nat × Nat × Nat × Nat) (i : Nat) :
    Nat × Nat × Nat × Nat × Nat :=
  let (a, b, c, d, e) := s
  let (F, g) :=
    if i < 20 then ((b &&& c) ||| ((b ^^^ 0xFFFFFFFF) &&& d), 0x5A827999)
    else if i < 40 then (b ^^^ c ^^^ d, 0x6ED9EBA1)
    else if i < 60 then ((b &&& c) ||| (b &&& d) ||| (c &&& d), 0x8F1BBCDC)
    else (b ^^^ c ^^^ d, 0xCA62C1D6)
  let temp := (leftRotate32bits a 5 + F + e + g + blocks.getD i 0) % 2 ^ 32
  (temp, a, leftRotate32bits b 30, c, d)

/-- The body of the chunk loop: schedule, 80 rounds, then `h0 += a; ... h4 += e`. -/
def sha1_chunk (padded : List Nat) (h : Nat × Nat × Nat × Nat × Nat) (chunk : Nat) :
    Nat × Nat × Nat × Nat × Nat :=
  let blocks := sha1_schedule padded chunk
  let (h0, h1, h2, h3, h4) := h
  let (a, b, c, d, e) := (List.range 80).foldl (sha1_round blocks) h
  ((h0 + a) % 2 ^ 32, (h1 + b) % 2 ^ 32, (h2 + c) % 2 ^ 32, (h3 + d) % 2 ^ 32,
    (h4 + e) % 2 ^ 32)

/-- The SHA-1 algorithm on a byte string (`hash_bs`); bytes are numbers below 256. -/
def hash_bs (input : List Nat) : List Nat :=
  let input_size := input.length
  let padded_message_size :=
    if input_size % 64 < 56 then input_size + 64 - input_size % 64
    else input_size + 128 - input_size % 64
  let padded0 := input ++ List.replicate (padded_message_size - input_size) 0
  let padded1 := padded0.set input_size (1 <<< 7)
  let input_bitsize := (input_size * 8) % 2 ^ 64
  let padded := (List.range 8).foldl
    (fun pm i =>
      pm.set (padded_message_size - 8 + i) ((input_bitsize >>> (56 - 8 * i)) &&& 0xFF))
    padded1
  let (h0, h1, h2, h3, h4) :=
    (List.range (padded_message_size / 64)).foldl (sha1_chunk padded)
      (0x67452301, 0xEFCDAB89, 0x98BADCFE, 0x10325476, 0xC3D2E1F0)
  (List.range 4).foldl
    (fun sig i =>
      ((((sig.set i ((h0 >>> (24 - 8 * i)) &&& 0xFF)).set (i + 4)
        ((h1 >>> (24 - 8 * i)) &&& 0xFF)).set (i + 8)
        ((h2 >>> (24 - 8 * i)) &&& 0xFF)).set (i + 12)
        ((h3 >>> (24 - 8 * i)) &&& 0xFF)).set (i + 16)
        ((h4 >>> (24 - 8 * i)) &&& 0xFF))
    (List.replicate 20 0)

/-- The bytes of a `std::string` (UTF-8). -/
def string_bytes (s : String) : List Nat :=
  s.data.flatMap fun c => (String.utf8EncodeChar c).map UInt8.toNat

/-- The entry point `hash(const std::string&)`. -/
def hash (message : String) : List Nat :=
  hash_bs (string_bytes message)

/-- Digest of a file's bytes as `calculate_file_sha1` returns it once the file is open:
`sig2hex(hash(file_content))`. -/
def calculate_file_sha1 (file_content : String) : String :=
  sig2hex (hash file_content)

/-! ## Files, directories and `std::map` -/

/-- A directory of regular files: name and content of each entry, in enumeration order. -/
abbrev Files := List (String × String)

/-- The test `fs::exists(dir + name)`. -/
def Files.file_exists (d : Files) (name : String) : Bool :=
  (d.lookup name).isSome

/-- Is `name` the name of a directory entry: not empty, without `/`, and neither `.` nor
`..`? -/
def plain_name (name : String) : Bool :=
  name != "" && !name.data.contains '/' && name != "." && name != ".."

/-- The test `fs::exists(dir + name)` on one of the directories of `.minigit`: for the empty
name, `.` and `..` the path is that of a directory, which exists; another name exists when it
is an entry of the directory (a name `d/...` through an entry `d` leads nowhere, since the
directory holds regular files only). A name that leaves the directory through a leading `..`
is followed by `branch` only (`object_route`). -/
def Files.path_exists (d : Files) (name : String) : Bool :=
  decide (name = "") || decide (name = ".") || decide (name = "..") || d.file_exists name

/-- The stream `std::ifstream file(dir + name)` on one of the directories of `.minigit`: the
content of the entry `name`; for the empty name, `.` and `..` the path is a directory, which
opens and yields no byte (a first `std::getline` then clears its variable); `none` when the
stream cannot be opened. -/
def Files.open_path (d : Files) (name : String) : Option String :=
  match d.lookup name with
  | some content => some content
  | none => if name = "" ∨ name = "." ∨ name = ".." then some "" else none

/-- Content of a file opened with `std::ifstream`; `none` when it cannot be opened. -/
def Files.open_read (d : Files) (name : String) : Option String :=
  d.lookup name

/-- Writing a file through a fresh `std::ofstream`: truncate or create. -/
def Files.write : Files → String → String → Files
  | [], name, content => [(name, content)]
  | (n, c) :: d, name, content =>
    if n = name then (n, content) :: d else (n, c) :: Files.write d name content

/-- The call `fs::remove(name)`. -/
def Files.remove (d : Files) (name : String) : Files :=
  d.filter (fun e => e.1 != name)

/-- First `std::getline` on an opened file into a fresh (empty) string. -/
def first_line (content : String) : String :=
  (getlines content).headD ""

/-- The call `std::getline(file, var)` on a just-opened `std::ifstream`: when the file could not
be opened the variable keeps its value `old`, otherwise it receives the first line. -/
def getline_into (file : Option String) (old : String) : String :=
  match file with
  | none => old
  | some content => first_line content

/-- Lexicographic comparison of character sequences, the order of `std::string::operator<`. -/
def chars_lt : List Char → List Char → Bool
  | _, [] => false
  | [], _ :: _ => true
  | a :: as, b :: bs =>
    if a.toNat < b.toNat then true
    else if b.toNat < a.toNat then false
    else chars_lt as bs

/-- The key comparison `k < k2` of `std::map<std::string, ...>`. -/
def str_lt (k k2 : String) : Bool :=
  chars_lt k.data k2.data

/-- A `std::map<std::string, std::string>`: entries in increasing key order. -/
abbrev SMap := List (String × String)

/-- The assignment `m[k] = v`. -/
def SMap.insert : SMap → String → String → SMap
  | [], k, v => [(k, v)]
  | (k', v') :: m, k, v =>
    if str_lt k k' then (k, v) :: (k', v') :: m
    else if k = k' then (k, v) :: m
    else (k', v') :: SMap.insert m k v

/-- The lookup `m.find(k)`; `none` is `m.end()`. -/
def SMap.find (m : SMap) (k : String) : Option String :=
  m.lookup k

/-- The read `m[k]`: the bound value, or a default-inserted empty string. -/
def SMap.index (m : SMap) (k : String) : String × SMap :=
  match m.find k with
  | some v => (v, m)
  | none => ("", m.insert k "")

/-- The keys of a map are strictly increasing. -/
def SMap.sorted : SMap → Prop
  | [] => True
  | (k, _) :: m => (∀ e ∈ m, str_lt k e.1 = true) ∧ SMap.sorted m

/-! ## The repository on disk -/

/-- The persistent state the commands act on. -/
structure Repo where
  /-- Content of `.minigit/HEAD`. -/
  head : String
  /-- Content of `.minigit/index`. -/
  index : String
  /-- The directory `.minigit/objects/`. -/
  objects : Files
  /-- The directory `.minigit/refs/heads/`. -/
  heads : Files
  /-- The regular files of the working directory other than `.minigit`, by relative path. -/
  work : Files
deriving DecidableEq, Repr

/-- Lines read from `.minigit/objects/<digest>`; for the empty digest the path is the
directory itself, which yields no line, as does a missing file. -/
def object_lines (objects : Files) (digest : String) : List String :=
  if digest = "" then []
  else
    match objects.open_read digest with
    | none => []
    | some content => getlines content

/-- Bytes copied by `dst << src.rdbuf()` from `.minigit/objects/<digest>`: nothing when the
source cannot be read. -/
def object_bytes (objects : Files) (digest : String) : String :=
  if digest = "" then ""
  else (objects.open_read digest).getD ""

/-! ## Commit graph helpers -/

/-- The parsing loop of `get_files_from_commit` on the lines of a commit record. -/
def parse_files : List String → Bool → SMap → SMap
  | [], _, files => files
  | line :: rest, in_files_section, files =>
    if starts_with line "tree " || starts_with line "parent " || starts_with line "author "
        || starts_with line "committer " then
      parse_files rest in_files_section files
    else if line = "" then
      parse_files rest true files
    else if in_files_section then
      if has_space line then
        parse_files rest in_files_section (files.insert (after_space line) (before_space line))
      else parse_files rest in_files_section files
    else parse_files rest in_files_section files

/-- The manifest `get_files_from_commit` reads from a stored commit. -/
def get_files_from_commit (objects : Files) (commit_hash : String) : SMap :=
  parse_files (object_lines objects commit_hash) false []

/-- The inner loop shared by both walks of `find_common_ancestor`: the first line that
starts with `"parent "`, or the empty string. -/
def find_parent_line : List String → String
  | [] => ""
  | line :: rest => if starts_with line "parent " then line else find_parent_line rest

/-- First loop of `find_common_ancestor`: collect `path1` along first recorded parents. -/
def ancestor_path (objects : Files) : Nat → String → List String → Option (List String)
  | 0, current_commit, path1 => if current_commit = "" then some path1 else none
  | fuel + 1, current_commit, path1 =>
    if current_commit = "" then some path1
    else
      let parent_line := find_parent_line (object_lines objects current_commit)
      ancestor_path objects fuel
        (if parent_line ≠ "" then substr_from parent_line 7 else "")
        (path1 ++ [current_commit])

/-- Second loop of `find_common_ancestor`: the walk from `commit2_hash`. -/
def ancestor_search (objects : Files) (path1 : List String) : Nat → String → Option String
  | 0, current_commit => if current_commit = "" then some "" else none
  | fuel + 1, current_commit =>
    if current_commit = "" then some ""
    else if path1.contains current_commit then some current_commit
    else
      let parent_line := find_parent_line (object_lines objects current_commit)
      ancestor_search objects path1 fuel (if parent_line ≠ "" then "" else current_commit)

/-- The function `find_common_ancestor`; `fuel` bounds the iterations of each loop and
`none` means a loop was still running when it ran out. -/
def find_common_ancestor (objects : Files) (fuel : Nat) (commit1_hash commit2_hash : String) :
    Option String :=
  match ancestor_path objects fuel commit1_hash [] with
  | none => none
  | some path1 => ancestor_search objects path1 fuel commit2_hash

/-! ## Commands -/

/-- The command `init` in a directory without `.minigit`, whose other entries are `work`. -/
def init (work : Files) : Repo :=
  { head := "ref: refs/heads/master\n", index := "", objects := [], heads := [], work := work }

/-- The command `add`: store the blob under its digest and append a line to the index. -/
def add (r : Repo) (filename : String) : Repo :=
  match r.work.open_read filename with
  | none => r
  | some file_content =>
    let file_sha1 := calculate_file_sha1 file_content
    if file_sha1 = "" then r
    else
      { r with
        objects := r.objects.write file_sha1 file_content
        index := r.index ++ (file_sha1 ++ " " ++ filename ++ "\n") }

/-- The two identity lines of a commit record; `now` is the formatted local time. -/
def signature_lines (now : String) : String :=
  "\nauthor Samuel Godad and Firamit Megersa <godadsamuel@gmail.com> " ++ now ++
    "\ncommitter Samuel Godad and Firamit Megersa <godadsamuel@gmail.com> " ++ now

/-- The record `commit` serialises and the digest it is stored under. -/
def commit_record (now : String) (r : Repo) (message : String) : String :=
  let head_ref := first_line r.head
  let parent_commit_hash :=
    if starts_with head_ref "ref: refs/heads/" then
      match r.heads.open_read (substr_from head_ref 16) with
      | some ref_content => first_line ref_content
      | none => ""
    else head_ref
  let header := if parent_commit_hash ≠ "" then "tree " ++ ("\nparent " ++ parent_commit_hash)
    else "tree "
  (getlines r.index).foldl (fun commit_content line => commit_content ++ (line ++ "\n"))
    (header ++ signature_lines now ++ ("\n\n" ++ message ++ "\n"))

/-- The command `commit`. -/
def commit (now : String) (r : Repo) (message : String) : Repo :=
  let head_ref := first_line r.head
  let current_branch_name :=
    if starts_with head_ref "ref: refs/heads/" then substr_from head_ref 16 else ""
  let commit_content := commit_record now r message
  let commit_sha1 := sig2hex (hash commit_content)
  let objects := r.objects.write commit_sha1 commit_content
  if current_branch_name ≠ "" then
    { r with
      objects := objects
      head := "ref: refs/heads/" ++ current_branch_name ++ "\n"
      heads := r.heads.write current_branch_name (commit_sha1 ++ "\n")
      index := "" }
  else
    { r with
      objects := objects
      head := "ref: refs/heads/master\n"
      heads := r.heads.write "master" (commit_sha1 ++ "\n")
      index := "" }

/-- The file `.minigit/<path>` as an input stream, for the paths the model knows. -/
def Repo.open_read (r : Repo) (path : String) : Option String :=
  if path = "HEAD" then some r.head
  else if path = "index" then some r.index
  else if starts_with path "refs/heads/" then r.heads.open_path (substr_from path 11)
  else if starts_with path "objects/" then r.objects.open_path (substr_from path 8)
  else none

/-- The key `k` when `branch_name` is `../../objects/k` for a plain `k`: seen from
`.minigit/refs/heads/`, that path is the file `k` of the object store. -/
def object_route (branch_name : String) : Option String :=
  if starts_with branch_name "../../objects/" && plain_name (substr_from branch_name 14) then
    some (substr_from branch_name 14)
  else none

/-- The command `branch <name>`. The stream `new_branch_file` creates the file for a plain
name; for `../../objects/k` the file it creates lies in the object store; for a name `a/...`
whose first component is a plain name the directory `a` does not exist, the stream cannot be
opened and nothing is written. The other names with a `/` are not followed: the model leaves
the state as it is. -/
def branch (r : Repo) (branch_name : String) : Repo :=
  let head_line := first_line r.head
  let head_commit_hash :=
    if starts_with head_line "ref: " then
      getline_into (r.open_read (substr_from head_line 5)) head_line
    else head_line
  if r.heads.path_exists branch_name then r
  else
    match object_route branch_name with
    | some k =>
      if r.objects.file_exists k then r
      else { r with objects := r.objects.write k (head_commit_hash ++ "\n") }
    | none =>
      if plain_name branch_name then
        { r with heads := r.heads.write branch_name (head_commit_hash ++ "\n") }
      else r

/-- The parsing loop of `checkout`: the `(digest, filename)` pairs in record order. -/
def parse_file_list : List String → Bool → List (String × String)
  | [], _ => []
  | line :: rest, in_files_section =>
    if starts_with line "tree " || starts_with line "parent " || starts_with line "author "
        || starts_with line "committer " then
      parse_file_list rest in_files_section
    else if line = "" then
      parse_file_list rest true
    else if in_files_section && has_space line then
      (before_space line, after_space line) :: parse_file_list rest in_files_section
    else parse_file_list rest in_files_section

/-- Can `std::ofstream dst(path)` create `path` in the working directory that `checkout` has
just emptied? Not for the empty path, and not for a path `d/...` whose first component `d` is
the name of a subdirectory (anything but the root, `.`, `..` and `.minigit`): every such
directory was removed by `fs::remove_all`, and opening a stream creates no directory. -/
def restorable (path : String) : Bool :=
  path != "" &&
    (!path.data.contains '/' ||
      ["", ".", "..", ".minigit"].contains (String.mk (path.data.takeWhile (· != '/'))))

/-- The command `checkout <target>`; `none` is the error "Branch or commit not found". -/
def checkout (r : Repo) (target : String) : Option Repo :=
  let resolved : Option (String × String) :=
    if r.heads.path_exists target then
      some (getline_into (r.heads.open_read target) "", "ref: refs/heads/" ++ target)
    else if r.objects.path_exists target then some (target, target)
    else none
  match resolved with
  | none => none
  | some (commit_hash_to_checkout, head_content) =>
    let files_in_commit := parse_file_list (object_lines r.objects commit_hash_to_checkout) false
    some { r with
      head := head_content ++ "\n"
      work := files_in_commit.foldl
        (fun work file_entry =>
          if restorable file_entry.2 then
            work.write file_entry.2 (object_bytes r.objects file_entry.1)
          else work)
        [] }

/-- What `merge` reports. -/
inductive MergeOutcome where
  /-- "Error: Detached HEAD. Cannot merge." -/
  | detached_head
  /-- "Error: Branch ... not found." -/
  | branch_not_found
  /-- "Already up to date." -/
  | up_to_date
  /-- One "Conflict in file: ..." line per listed path, then "Merge failed ...". -/
  | conflicts (files : List String)
  /-- "Merged branch ..." with the digest of the merge commit. -/
  | merged (merge_commit_sha1 : String)
  /-- The process ends in `std::terminate` while the working directory is listed:
  `calculate_file_sha1` reads a sub-directory and the stream throws. -/
  | aborted
deriving DecidableEq, Repr

/-- The variables the first loop of `merge` updates. -/
structure MergeLoop where
  repo : Repo
  current_files : SMap
  ancestor_files : SMap
  conflict : Bool
  /-- The paths named on `stderr` so far, in order. -/
  reported : List String
deriving DecidableEq, Repr

/-- The longest prefix of whole characters that fits in `k` bytes. -/
def take_bytes : Nat → List Char → List Char
  | _, [] => []
  | k, c :: cs => if c.utf8Size ≤ k then c :: take_bytes (k - c.utf8Size) cs else []

/-- The part of a file that is on disk while the `std::ofstream` that received it through
`dst << src.rdbuf()` is still open (libstdc++: the bytes arrive in chunks of 8191, and a last
chunk shorter than 1024 bytes waits in the stream buffer until the stream is closed). For a
file shorter than 1024 bytes this is the empty file. -/
def written_through (content : String) : String :=
  let n := (string_bytes content).length
  if n % 8191 < 1024 then String.mk (take_bytes (n - n % 8191) content.data) else content

/-- The characters of `path` up to and including its last `/`. -/
def dir_part (path : List Char) : List Char :=
  (path.reverse.dropWhile (· != '/')).reverse

/-- Can `std::ofstream dst(path)` open `path` in the working directory `work`? Not when
`path` is a directory (some working file lies in it). Otherwise a plain name can be opened:
the file is created or truncated; and a path `d/name` with a plain `name` can be opened only
when the directory `d` exists, that is when some working file lies in it. -/
def Files.can_create (work : Files) (path : String) : Bool :=
  if work.any (fun e => (path.data ++ ['/']).isPrefixOf e.1.data) then false
  else if path.data.contains '/' then
    plain_name (String.mk (path.data.drop (dir_part path.data).length)) &&
      work.any (fun e => (dir_part path.data).isPrefixOf e.1.data)
  else plain_name path

/-- Body of `for (const auto& [filename, merge_sha1] : merge_files)`. In the copy branch
`add(filename)` runs while `dst` is still open, so it reads what `written_through` leaves on
disk; the rest of the bytes follow when `dst` is closed at the end of the block. -/
def merge_step (st : MergeLoop) (entry : String × String) : MergeLoop :=
  let filename := entry.1
  let merge_sha1 := entry.2
  let current_sha1 := (st.current_files.index filename).1
  let ancestor_sha1 := (st.ancestor_files.index filename).1
  let st1 : MergeLoop :=
    { st with
      current_files := (st.current_files.index filename).2
      ancestor_files := (st.ancestor_files.index filename).2 }
  if current_sha1 = merge_sha1 then st1
  else if current_sha1 = ancestor_sha1 then
    if st.repo.work.can_create filename then
      let content := object_bytes st.repo.objects merge_sha1
      let open_copy : Repo :=
        { st.repo with work := st.repo.work.write filename (written_through content) }
      { st1 with
        repo := { add open_copy filename with work := st.repo.work.write filename content } }
    else { st1 with repo := add st.repo filename }
  else if merge_sha1 = ancestor_sha1 then st1
  else { st1 with conflict := true, reported := st.reported ++ [filename] }

/-- Body of the second loop of `merge`, over `current_files`. -/
def delete_step (merge_files ancestor_files : SMap) (r : Repo) (entry : String × String) : Repo :=
  if (merge_files.find entry.1).isNone && (ancestor_files.find entry.1).isSome then
    { r with work := r.work.remove entry.1 }
  else r

/-- The record of the merge commit: two parent lines, then one line per working file. -/
def merge_record (now : String) (work : Files) (current_branch_hash merge_branch_hash : String)
    (branch_to_merge : String) : String :=
  work.foldl
    (fun commit_content entry =>
      let file_sha1 := calculate_file_sha1 entry.2
      if file_sha1 ≠ "" then commit_content ++ (file_sha1 ++ " " ++ entry.1 ++ "\n")
      else commit_content)
    ("tree " ++ ("\nparent " ++ current_branch_hash) ++ ("\nparent " ++ merge_branch_hash) ++
      signature_lines now ++ ("\n\n" ++ ("Merge branch \"" ++ branch_to_merge ++ "\"") ++ "\n"))

/-- The first loop of `merge`, run from the three manifests read at lines 521-523. -/
def merge_loop (r : Repo) (current_branch_hash merge_branch_hash common_ancestor_hash : String) :
    MergeLoop :=
  (get_files_from_commit r.objects merge_branch_hash).foldl merge_step
    { repo := r
      current_files := get_files_from_commit r.objects current_branch_hash
      ancestor_files := get_files_from_commit r.objects common_ancestor_hash
      conflict := false
      reported := [] }

/-- The part of `merge` after `find_common_ancestor` has returned: both loops, the conflict
check and the creation of the merge commit. The listing of the working directory visits its
top-level entries; when one of them is a sub-directory (some working file has a `/` in its
path) `calculate_file_sha1` throws and the process ends before any commit is written. -/
def merge_from_base (now : String) (r : Repo) (branch_to_merge head_ref : String)
    (current_branch_hash merge_branch_hash common_ancestor_hash : String) :
    Repo × MergeOutcome :=
  let merge_files := get_files_from_commit r.objects merge_branch_hash
  let st := merge_loop r current_branch_hash merge_branch_hash common_ancestor_hash
  let r1 := st.current_files.foldl (delete_step merge_files st.ancestor_files) st.repo
  if st.conflict then (r1, MergeOutcome.conflicts st.reported)
  else if r1.work.any (fun e => e.1.data.contains '/') then (r1, MergeOutcome.aborted)
  else
    let commit_content :=
      merge_record now r1.work current_branch_hash merge_branch_hash branch_to_merge
    let merge_commit_sha1 := sig2hex (hash commit_content)
    let current_branch_name := substr_from head_ref 16
    ({ r1 with
        objects := r1.objects.write merge_commit_sha1 commit_content
        head := "ref: refs/heads/" ++ current_branch_name ++ "\n"
        heads := r1.heads.write current_branch_name (merge_commit_sha1 ++ "\n") },
      MergeOutcome.merged merge_commit_sha1)

/-- The tip `merge` reads for the branch `HEAD` names (lines 491-494); empty when the branch
file cannot be opened. -/
def merge_current_hash (r : Repo) : String :=
  getline_into (r.heads.open_read (substr_from (first_line r.head) 16)) ""

/-- The command `merge <branch>`; `none` means the search for the common ancestor was still
running when `fuel` ran out. -/
def merge (now : String) (fuel : Nat) (r : Repo) (branch_to_merge : String) :
    Option (Repo × MergeOutcome) :=
  let head_ref := first_line r.head
  if !starts_with head_ref "ref: refs/heads/" then some (r, MergeOutcome.detached_head)
  else
    let current_branch_hash := merge_current_hash r
    if !r.heads.path_exists branch_to_merge then some (r, MergeOutcome.branch_not_found)
    else
      let merge_branch_hash := getline_into (r.heads.open_read branch_to_merge) ""
      if current_branch_hash = merge_branch_hash then some (r, MergeOutcome.up_to_date)
      else
        match find_common_ancestor r.objects fuel current_branch_hash merge_branch_hash with
        | none => none
        | some common_ancestor_hash =>
          some (merge_from_base now r branch_to_merge head_ref current_branch_hash
            merge_branch_hash common_ancestor_hash)

/-- Editing a working file outside minigit: the file `name` now holds `content`. -/
def edit (r : Repo) (name content : String) : Repo :=
  { r with work := r.work.write name content }

/-- The inner loop of `log` over the lines of one commit record: it stops at the first empty
line and returns the content of `parent_line` at that point. -/
def log_parent_line : List String → String → String
  | [], parent_line => parent_line
  | line :: rest, parent_line =>
    if starts_with line "author " then log_parent_line rest parent_line
    else if starts_with line "committer " then log_parent_line rest parent_line
    else if starts_with line "parent " then log_parent_line rest line
    else if line = "" then parent_line
    else log_parent_line rest parent_line

/-- The outer loop of `log`: the digests printed after `commit `, in order. -/
def log_walk (objects : Files) : Nat → String → Option (List String)
  | 0, current_commit_hash => if current_commit_hash = "" then some [] else none
  | fuel + 1, current_commit_hash =>
    if current_commit_hash = "" then some []
    else
      let parent_line := log_parent_line (object_lines objects current_commit_hash) ""
      (log_walk objects fuel (if parent_line ≠ "" then substr_from parent_line 7 else "")).map
        (current_commit_hash :: ·)

/-- The command `log`: the commits it prints; `none` when the walk is still running after
`fuel` commits. -/
def log (fuel : Nat) (r : Repo) : Option (List String) :=
  let head_line := first_line r.head
  let current_commit_hash :=
    if starts_with head_line "ref: refs/heads/" then
      getline_into (r.open_read (substr_from head_line 5)) head_line
    else head_line
  log_walk r.objects fuel current_commit_hash

/-- The file names `status` lists under "Changes to be committed": one per non-empty index
line that contains a space. -/
def staged_files (index : String) : List String :=
  ((getlines index).filter (fun line => line ≠ "" && has_space line)).map after_space

/-- The branch file `commit` writes: the branch `HEAD` names, or `master` when
`current_branch_name` is empty (detached `HEAD`). -/
def commit_branch (r : Repo) : String :=
  let head_ref := first_line r.head
  let current_branch_name :=
    if starts_with head_ref "ref: refs/heads/" then substr_from head_ref 16 else ""
  if current_branch_name ≠ "" then current_branch_name else "master"

/-- Every object is stored under the digest of its own content. -/
def content_addressed (objects : Files) : Prop :=
  ∀ k content, objects.open_read k = some content → k = calculate_file_sha1 content

/-! ## Reference notions and concrete repositories -/

/-- Reference notion for ancestry: the parent digests a commit record lists, one per line
`parent <digest>`, in recorded order (the source has no function enumerating all parents). -/
def all_parents (objects : Files) (commit_hash : String) : List String :=
  ((object_lines objects commit_hash).filter (starts_with · "parent ")).map (substr_from · 7)

/-- Reference notion for ancestry: `x` lies on the chain that starts at the commit `c` and
steps from each commit to its first recorded parent (`c` included). -/
inductive FirstParentChain (objects : Files) : String → String → Prop where
  | start (c : String) : c ≠ "" → FirstParentChain objects c c
  | step (c p x : String) : c ≠ "" → (all_parents objects c).head? = some p →
      FirstParentChain objects p x → FirstParentChain objects c x

/-- Reference notion for ancestry: the ancestor set of a commit, self-inclusive, by
breadth-first traversal over all parent edges, each commit recorded once. -/
def ancestor_set (objects : Files) : Nat → List String → List String → List String
  | 0, _, visited => visited
  | _ + 1, [], visited => visited
  | fuel + 1, c :: queue, visited =>
    if visited.contains c then ancestor_set objects fuel queue visited
    else ancestor_set objects fuel (queue ++ all_parents objects c) (visited ++ [c])

/-- The time stamp used in the concrete histories below. -/
def now0 : String := "Sun Nov  1 12:00:00 2026"

/-- The scenario of §8: `init`, `add f` ("hello"), `commit first`, `branch topic`,
`checkout topic`, `f` changed to "world", `add f`, `commit second`, `checkout master`. -/
def fast_forward_scenario : Option Repo :=
  let r := init [("f", "hello")]
  let r := add r "f"
  let r := commit now0 r "first"
  let r := branch r "topic"
  match checkout r "topic" with
  | none => none
  | some r =>
    let r := edit r "f" "world"
    let r := add r "f"
    let r := commit now0 r "second"
    checkout r "master"

/-- Digest of the blob "hello". -/
def blob_hello : String := "aaf4c61ddcc5e8a2dabede0f3b482cd9aea9434d"

/-- Digest of the blob "world". -/
def blob_world : String := "7c211433f02071597741e6ff5a8ea34789abbf43"

/-- Digest of the blob "one". -/
def blob_one : String := "fe05bcdcdc4928012781a5f1a2a77cbb5398e106"

/-- Digest of the blob "two". -/
def blob_two : String := "ad782ecdac770fc6eb9a62e44f90873fb97fb26b"

/-- Digest of the first commit of `fast_forward_scenario` (tip of `master`). -/
def ff_first : String := "3cfa2b4027c4560f2f96c2492af5cf688ede4eb4"

/-- Digest of the second commit of `fast_forward_scenario` (tip of `topic`). -/
def ff_second : String := "3b9f89a16545c16a604c4da07a496fab980acdb5"

/-- The record the first commit of the scenario stores. -/
def ff_first_record : String :=
  "tree " ++ signature_lines now0 ++ ("\n\nfirst\n" ++ blob_hello ++ " f\n")

/-- The record the second commit of the scenario stores. -/
def ff_second_record : String :=
  "tree \nparent " ++ ff_first ++ signature_lines now0 ++
    ("\n\nsecond\n" ++ blob_world ++ " f\n")

/-- The scenario after `init` and `add f`. -/
def ff_staged : Repo :=
  { head := "ref: refs/heads/master\n"
    index := blob_hello ++ " f\n"
    objects := [(blob_hello, "hello")]
    heads := []
    work := [("f", "hello")] }

/-- The scenario after `commit first`. -/
def ff_committed : Repo :=
  { ff_staged with
    index := ""
    objects := [(blob_hello, "hello"), (ff_first, ff_first_record)]
    heads := [("master", ff_first ++ "\n")] }

/-- The scenario after `branch topic`. -/
def ff_branched : Repo :=
  { ff_committed with heads := [("master", ff_first ++ "\n"), ("topic", ff_first ++ "\n")] }

/-- The scenario after `checkout topic`. -/
def ff_on_topic : Repo :=
  { ff_branched with head := "ref: refs/heads/topic\n" }

/-- The scenario after `f` was changed to "world" and staged. -/
def ff_restaged : Repo :=
  { ff_on_topic with
    index := blob_world ++ " f\n"
    objects := [(blob_hello, "hello"), (ff_first, ff_first_record), (blob_world, "world")]
    work := [("f", "world")] }

/-- The scenario after `commit second`. -/
def ff_recommitted : Repo :=
  { ff_restaged with
    index := ""
    objects :=
      [(blob_hello, "hello"), (ff_first, ff_first_record), (blob_world, "world"),
       (ff_second, ff_second_record)]
    heads := [("master", ff_first ++ "\n"), ("topic", ff_second ++ "\n")] }

/-- The repository `fast_forward_scenario` ends in, written out. -/
def ff_repo : Repo :=
  { head := "ref: refs/heads/master\n"
    index := ""
    objects :=
      [(blob_hello, "hello"), (ff_first, ff_first_record), (blob_world, "world"),
       (ff_second, ff_second_record)]
    heads := [("master", ff_first ++ "\n"), ("topic", ff_second ++ "\n")]
    work := [("f", "hello")] }

/-- The function `hash` with its values on the four byte strings the scenario hashes
written out; `hash_eq_scenario_hash` proves it equal to `hash`. -/
def scenario_hash (message : String) : List Nat :=
  if message = "hello" then
    [170, 244, 198, 29, 220, 197, 232, 162, 218, 190,
      222, 15, 59, 72, 44, 217, 174, 169, 67, 77]
  else if message = "world" then
    [124, 33, 20, 51, 240, 32, 113, 89, 119, 65,
      230, 255, 90, 142, 163, 71, 137, 171, 191, 67]
  else if message = ff_first_record then
    [60, 250, 43, 64, 39, 196, 86, 15, 47, 150,
      194, 73, 42, 245, 207, 104, 142, 222, 78, 180]
  else if message = ff_second_record then
    [59, 159, 137, 161, 101, 69, 193, 106, 96, 76,
      77, 160, 122, 73, 111, 171, 152, 10, 205, 181]
  else hash_bs (string_bytes message)

/-- Digest of the commit on `master` in `two_roots_repo`; it records no parent. -/
def tr_master : String := "3cfa2b4027c4560f2f96c2492af5cf688ede4eb4"

/-- Digest of the commit on `topic` in `two_roots_repo`. -/
def tr_topic : String := "fe4a68f1185e3fb6bb26382654690fcb51e771f1"

/-- The repository after `init`, `branch topic`, `add f` ("hello"), `commit first`,
`checkout topic`, `g` created with "one", `add g`, `commit second`: the commit on `topic`
does not descend from the parentless commit on `master`. -/
def two_roots_repo : Repo :=
  { head := "ref: refs/heads/topic\n"
    index := ""
    objects :=
      [("aaf4c61ddcc5e8a2dabede0f3b482cd9aea9434d", "hello"),
       (tr_master, "tree " ++ signature_lines now0 ++
          "\n\nfirst\naaf4c61ddcc5e8a2dabede0f3b482cd9aea9434d f\n"),
       ("fe05bcdcdc4928012781a5f1a2a77cbb5398e106", "one"),
       (tr_topic, "tree \nparent ref: refs/heads/master" ++ signature_lines now0 ++
          "\n\nsecond\nfe05bcdcdc4928012781a5f1a2a77cbb5398e106 g\n")]
    heads := [("topic", tr_topic ++ "\n"), ("master", tr_master ++ "\n")]
    work := [("g", "one")] }

/-- Digest of the shared first commit of `disjoint_repo` and `deletion_repo`
(`f` is "hello", `g` is "one"). -/
def base_commit : String := "dc7de17fa8c78eb3203d5c3d6415864276f83ae7"

/-- The record stored under `base_commit`. -/
def base_record : String :=
  "tree " ++ signature_lines now0 ++
    ("\n\nfirst\n" ++ blob_hello ++ " f\n" ++ blob_one ++ " g\n")

/-- Tip of `topic` in `disjoint_repo`: `g` changed to "two". -/
def dj_topic : String := "fdcf27bc7bf02f0ae89deb682f040b8235b73466"

/-- Tip of `master` in `disjoint_repo`: `f` changed to "world". -/
def dj_master : String := "aa7d3356a3931493248ac55cbeb5c701dad14bf6"

/-- The repository after `init` (files `f` "hello", `g` "one"), `add f`, `add g`,
`commit first`, `branch topic`, `checkout topic`, `g` changed to "two", `add f`, `add g`,
`commit second`, `checkout master`, `f` changed to "world", `add f`, `add g`, `commit third`. -/
def disjoint_repo : Repo :=
  { head := "ref: refs/heads/master\n"
    index := ""
    objects :=
      [(blob_hello, "hello"), (blob_one, "one"), (base_commit, base_record),
       (blob_two, "two"),
       (dj_topic, "tree \nparent " ++ base_commit ++ signature_lines now0 ++
          ("\n\nsecond\n" ++ blob_hello ++ " f\n" ++ blob_two ++ " g\n")),
       (blob_world, "world"),
       (dj_master, "tree \nparent " ++ base_commit ++ signature_lines now0 ++
          ("\n\nthird\n" ++ blob_world ++ " f\n" ++ blob_one ++ " g\n"))]
    heads := [("master", dj_master ++ "\n"), ("topic", dj_topic ++ "\n")]
    work := [("f", "world"), ("g", "one")] }

/-- Tip of `topic` in `deletion_repo`: its manifest holds `f` only. -/
def del_topic : String := "ce416796e85a8de3d03dee48c0d4715898d9c541"

/-- The repository after `init` (files `f` "hello", `g` "one"), `add f`, `add g`,
`commit first`, `branch topic`, `checkout topic`, `add f`, `commit second`,
`checkout master`. -/
def deletion_repo : Repo :=
  { head := "ref: refs/heads/master\n"
    index := ""
    objects :=
      [(blob_hello, "hello"), (blob_one, "one"), (base_commit, base_record),
       (del_topic, "tree \nparent " ++ base_commit ++ signature_lines now0 ++
          ("\n\nsecond\n" ++ blob_hello ++ " f\n"))]
    heads := [("master", base_commit ++ "\n"), ("topic", del_topic ++ "\n")]
    work := [("f", "hello"), ("g", "one")] }

/-- Digest of the merge commit `merge topic` creates in `deletion_repo`. -/
def del_merge : String := "7738368e2c238968db16080807d5baa843288ee3"

/-- The repository `deletion_repo` after `merge topic`: the merge commit lists the current tip
`base_commit` first and the incoming tip `del_topic` second. -/
def merged_repo : Repo :=
  { deletion_repo with
    objects := deletion_repo.objects ++
      [(del_merge, "tree \nparent " ++ base_commit ++ ("\nparent " ++ del_topic) ++
          signature_lines now0 ++
          ("\n\nMerge branch \"topic\"\n" ++ blob_hello ++ " f\n" ++ blob_one ++ " g\n"))]
    heads := [("master", del_merge ++ "\n"), ("topic", del_topic ++ "\n")] }

/-- The repository `deletion_repo` after `g` was removed from the working directory and `f`
was changed to "world", neither change staged. -/
def unstored_repo : Repo :=
  { deletion_repo with work := [("f", "world")] }

/-- The record of the merge commit `merge topic` creates in `unstored_repo`. -/
def unstored_record : String :=
  "tree \nparent " ++ base_commit ++ ("\nparent " ++ del_topic) ++ signature_lines now0 ++
    ("\n\nMerge branch \"topic\"\n" ++ blob_world ++ " f\n")

/-- Digest of `unstored_record`. -/
def unstored_merge : String := "80504e587905971d1d4e676e651e62c0c4536ac1"

/-- The repository `unstored_repo` after `merge topic`. -/
def unstored_merged : Repo :=
  { unstored_repo with
    objects := deletion_repo.objects ++ [(unstored_merge, unstored_record)]
    heads := [("master", unstored_merge ++ "\n"), ("topic", del_topic ++ "\n")] }

/-- The function `hash` with its value on `unstored_record` written out as well;
`hash_eq_merge_scenario_hash` proves it equal to `hash`. -/
def merge_scenario_hash (message : String) : List Nat :=
  if message = unstored_record then
    [128, 80, 78, 88, 121, 5, 151, 29, 29, 78,
      103, 110, 101, 30, 98, 192, 196, 83, 106, 193]
  else scenario_hash message

/-- The repository after `init` in a directory whose only file is `d/f` ("hello"), and
`add d/f`. -/
def nested_staged : Repo :=
  { head := "ref: refs/heads/master\n"
    index := blob_hello ++ " d/f\n"
    objects := [(blob_hello, "hello")]
    heads := []
    work := [("d/f", "hello")] }

/-- Did `merge` report a merge commit? -/
def MergeOutcome.committed : MergeOutcome → Bool
  | .merged _ => true
  | _ => false

/-! # Lemmas and theorems -/

/-! ### Lemmas on the diff loop -/

theorem diffLoop_aligned (a b : List String) :
    ∀ fuel i j, (a.length - i) + (b.length - j) ≤ fuel →
      ∃ r, diffLoop a b fuel i j = some r ∧
        DiffRecord.sideA r = a.drop i ∧ DiffRecord.sideB r = b.drop j := by
  intro fuel
  induction fuel with
  | zero =>
    intro i j h
    have hi : a.length ≤ i := by omega
    have hj : b.length ≤ j := by omega
    refine ⟨[], ?_, ?_, ?_⟩
    · simp [diffLoop]; omega
    · simp [DiffRecord.sideA, List.drop_eq_nil_of_le hi]
    · simp [DiffRecord.sideB, List.drop_eq_nil_of_le hj]
  | succ fuel ih =>
    intro i j h
    rcases Nat.lt_or_ge i a.length with hi | hi <;>
      rcases Nat.lt_or_ge j b.length with hj | hj
    · have ha : a[i]? = some a[i] := List.getElem?_eq_getElem hi
      have hb : b[j]? = some b[j] := List.getElem?_eq_getElem hj
      have da : a.drop i = a[i] :: a.drop (i + 1) := List.drop_eq_getElem_cons hi
      have db : b.drop j = b[j] :: b.drop (j + 1) := List.drop_eq_getElem_cons hj
      obtain ⟨r11, e11, a11, b11⟩ := ih (i + 1) (j + 1) (by omega)
      obtain ⟨r01, e01, a01, b01⟩ := ih i (j + 1) (by omega)
      obtain ⟨r10, e10, a10, b10⟩ := ih (i + 1) j (by omega)
      simp only [diffLoop, ha, hb]
      by_cases heq : a[i] = b[j]
      · refine ⟨DiffRecord.equal a[i] :: r11, by simp [heq, e11], ?_, ?_⟩
        · rw [da]; simp [DiffRecord.sideA, a11]
        · rw [db]; simp [DiffRecord.sideB, b11, heq]
      · simp only [heq, if_false]
        split
        · refine ⟨DiffRecord.added b[j] :: r01, by simp [e01], ?_, ?_⟩
          · simp [DiffRecord.sideA, a01]
          · rw [db]; simp [DiffRecord.sideB, b01]
        · split
          · refine ⟨DiffRecord.removed a[i] :: r10, by simp [e10], ?_, ?_⟩
            · rw [da]; simp [DiffRecord.sideA, a10]
            · simp [DiffRecord.sideB, b10]
          · refine ⟨DiffRecord.removed a[i] :: DiffRecord.added b[j] :: r11,
              by simp [e11], ?_, ?_⟩
            · rw [da]; simp [DiffRecord.sideA, a11]
            · rw [db]; simp [DiffRecord.sideB, b11]
    · have ha : a[i]? = some a[i] := List.getElem?_eq_getElem hi
      have hb : b[j]? = none := List.getElem?_eq_none hj
      have da : a.drop i = a[i] :: a.drop (i + 1) := List.drop_eq_getElem_cons hi
      obtain ⟨r10, e10, a10, b10⟩ := ih (i + 1) j (by omega)
      refine ⟨DiffRecord.removed a[i] :: r10, by simp [diffLoop, ha, hb, e10], ?_, ?_⟩
      · rw [da]; simp [DiffRecord.sideA, a10]
      · simp [DiffRecord.sideB, b10]
    · have ha : a[i]? = none := List.getElem?_eq_none hi
      have hb : b[j]? = some b[j] := List.getElem?_eq_getElem hj
      have db : b.drop j = b[j] :: b.drop (j + 1) := List.drop_eq_getElem_cons hj
      obtain ⟨r01, e01, a01, b01⟩ := ih i (j + 1) (by omega)
      refine ⟨DiffRecord.added b[j] :: r01, by simp [diffLoop, ha, hb, e01], ?_, ?_⟩
      · simp [DiffRecord.sideA, a01]
      · rw [db]; simp [DiffRecord.sideB, b01]
    · have ha : a[i]? = none := List.getElem?_eq_none hi
      have hb : b[j]? = none := List.getElem?_eq_none hj
      refine ⟨[], by simp [diffLoop, ha, hb], ?_, ?_⟩
      · simp [DiffRecord.sideA, List.drop_eq_nil_of_le hi]
      · simp [DiffRecord.sideB, List.drop_eq_nil_of_le hj]

theorem diffLoop_same (a : List String) :
    ∀ fuel i, a.length - i ≤ fuel →
      diffLoop a a fuel i i = some ((a.drop i).map DiffRecord.equal) := by
  intro fuel
  induction fuel with
  | zero =>
    intro i h
    have hi : a.length ≤ i := by omega
    simp [diffLoop, List.drop_eq_nil_of_le hi]
    omega
  | succ fuel ih =>
    intro i h
    rcases Nat.lt_or_ge i a.length with hi | hi
    · have ha : a[i]? = some a[i] := List.getElem?_eq_getElem hi
      have da : a.drop i = a[i] :: a.drop (i + 1) := List.drop_eq_getElem_cons hi
      simp only [diffLoop, ha, ih (i + 1) (by omega), da, if_true, Option.map_some',
        List.map_cons]
    · have ha : a[i]? = none := List.getElem?_eq_none hi
      simp [diffLoop, ha, List.drop_eq_nil_of_le hi]

theorem diffLoop_nil_left (b : List String) :
    ∀ fuel j, b.length - j ≤ fuel →
      diffLoop [] b fuel 0 j = some ((b.drop j).map DiffRecord.added) := by
  intro fuel
  induction fuel with
  | zero =>
    intro j h
    have hj : b.length ≤ j := by omega
    simp [diffLoop, List.drop_eq_nil_of_le hj]
    omega
  | succ fuel ih =>
    intro j h
    rcases Nat.lt_or_ge j b.length with hj | hj
    · have hb : b[j]? = some b[j] := List.getElem?_eq_getElem hj
      have db : b.drop j = b[j] :: b.drop (j + 1) := List.drop_eq_getElem_cons hj
      simp only [diffLoop, hb, List.getElem?_nil, ih (j + 1) (by omega), db, Option.map_some',
        List.map_cons]
    · have hb : b[j]? = none := List.getElem?_eq_none hj
      simp [diffLoop, hb, List.drop_eq_nil_of_le hj]

theorem diffLoop_nil_right (a : List String) :
    ∀ fuel i, a.length - i ≤ fuel →
      diffLoop a [] fuel i 0 = some ((a.drop i).map DiffRecord.removed) := by
  intro fuel
  induction fuel with
  | zero =>
    intro i h
    have hi : a.length ≤ i := by omega
    simp [diffLoop, List.drop_eq_nil_of_le hi]
    omega
  | succ fuel ih =>
    intro i h
    rcases Nat.lt_or_ge i a.length with hi | hi
    · have ha : a[i]? = some a[i] := List.getElem?_eq_getElem hi
      have da : a.drop i = a[i] :: a.drop (i + 1) := List.drop_eq_getElem_cons hi
      simp only [diffLoop, ha, List.getElem?_nil, ih (i + 1) (by omega), da, Option.map_some',
        List.map_cons]
    · have ha : a[i]? = none := List.getElem?_eq_none hi
      simp [diffLoop, ha, List.drop_eq_nil_of_le hi]

/-! ## Lemmas on lines and commit records -/

theorem getlinesAux_line (l rest : List Char) (h : '\n' ∉ l) :
    getlinesAux (l ++ '\n' :: rest) = l :: getlinesAux rest := by
  induction l with
  | nil => simp [getlinesAux]
  | cons c cs ih =>
    have hc : c ≠ '\n' := fun e => h (by simp [e])
    have hcs : '\n' ∉ cs := fun e => h (by simp [e])
    simp [getlinesAux, hc, ih hcs]

theorem getlinesAux_head (pre rest : List Char) (h : '\n' ∉ pre) (hne : pre ≠ []) :
    ∃ l ls, getlinesAux (pre ++ rest) = (pre ++ l) :: ls := by
  induction pre with
  | nil => exact absurd rfl hne
  | cons c cs ih =>
    have hc : c ≠ '\n' := fun e => h (by simp [e])
    have hcs : '\n' ∉ cs := fun e => h (by simp [e])
    by_cases hnil : cs = []
    · subst hnil
      cases hr : getlinesAux rest with
      | nil => exact ⟨[], [], by simp [getlinesAux, hc, hr]⟩
      | cons l ls => exact ⟨l, ls, by simp [getlinesAux, hc, hr]⟩
    · obtain ⟨l, ls, hl⟩ := ih hcs hnil
      exact ⟨l, ls, by simp [getlinesAux, hc, hl]⟩

theorem getlinesAux_no_newline : ∀ (cs : List Char), ∀ l ∈ getlinesAux cs, '\n' ∉ l := by
  intro cs
  induction cs with
  | nil => intro l hl; simp [getlinesAux] at hl
  | cons c cs ih =>
    intro l hl
    by_cases hc : c = '\n'
    · simp only [getlinesAux, hc, if_true, List.mem_cons] at hl
      rcases hl with hl | hl
      · simp [hl]
      · exact ih l hl
    · simp only [getlinesAux, hc, if_false] at hl
      cases hr : getlinesAux cs with
      | nil =>
        simp only [hr, List.mem_singleton] at hl
        simp [hl, Ne.symm hc]
      | cons l0 ls =>
        simp only [hr, List.mem_cons] at hl
        rcases hl with hl | hl
        · have := ih l0 (by simp [hr])
          simp [hl, Ne.symm hc, this]
        · exact ih l (by simp [hr, hl])

theorem first_line_no_newline (content : String) : '\n' ∉ (first_line content).data := by
  unfold first_line getlines
  cases h : getlinesAux content.data with
  | nil => simp
  | cons l ls =>
    simp only [List.map_cons, List.headD_cons]
    exact getlinesAux_no_newline content.data l (by simp [h])

theorem first_line_append_newline (h : String) (hn : '\n' ∉ h.data) :
    first_line (h ++ "\n") = h := by
  unfold first_line getlines
  have : (h ++ "\n").data = h.data ++ '\n' :: [] := by simp
  rw [this, getlinesAux_line h.data [] hn]
  simp [getlinesAux]

theorem getlines_line (l rest : String) (h : '\n' ∉ l.data) :
    getlines (l ++ ("\n" ++ rest)) = l :: getlines rest := by
  unfold getlines
  have : (l ++ ("\n" ++ rest)).data = l.data ++ '\n' :: rest.data := by simp
  rw [this, getlinesAux_line l.data rest.data h]
  simp

theorem getlines_head (pre rest : String) (h : '\n' ∉ pre.data) (hne : pre.data ≠ []) :
    ∃ l ls, getlines (pre ++ rest) = l :: ls ∧ starts_with l pre = true := by
  unfold getlines
  obtain ⟨l, ls, hl⟩ := getlinesAux_head pre.data rest.data h hne
  refine ⟨String.mk (pre.data ++ l), ls.map String.mk, ?_, ?_⟩
  · rw [String.data_append, hl]
    simp
  · unfold starts_with
    rw [List.isPrefixOf_iff_prefix]
    exact List.prefix_append _ _

theorem record_fold_append (g : String → String) :
    ∀ (work : Files) (init : String),
      ∃ tail, work.foldl
        (fun commit_content entry =>
          let file_sha1 := g entry.2
          if file_sha1 ≠ "" then commit_content ++ (file_sha1 ++ " " ++ entry.1 ++ "\n")
          else commit_content) init = init ++ tail := by
  intro work
  induction work with
  | nil => intro init; exact ⟨"", by simp⟩
  | cons e work ih =>
    intro init
    simp only [List.foldl_cons]
    by_cases hg : g e.2 ≠ ""
    · obtain ⟨tail, ht⟩ := ih (init ++ (g e.2 ++ " " ++ e.1 ++ "\n"))
      refine ⟨(g e.2 ++ " " ++ e.1 ++ "\n") ++ tail, ?_⟩
      simp only at ht ⊢
      rw [if_pos hg, ht, String.append_assoc]
    · obtain ⟨tail, ht⟩ := ih init
      refine ⟨tail, ?_⟩
      simp only at ht ⊢
      rw [if_neg hg, ht]

theorem merge_record_lines (now : String) (work : Files) (cur inc b : String)
    (hc : '\n' ∉ cur.data) (hi : '\n' ∉ inc.data) :
    ∃ l rest, getlines (merge_record now work cur inc b) =
        "tree " :: ("parent " ++ cur) :: ("parent " ++ inc) :: l :: rest ∧
      starts_with l "author " = true := by
  obtain ⟨tail, ht⟩ := record_fold_append calculate_file_sha1 work
    ("tree " ++ ("\nparent " ++ cur) ++ ("\nparent " ++ inc) ++
      signature_lines now ++ ("\n\n" ++ ("Merge branch \"" ++ b ++ "\"") ++ "\n"))
  have hshape : merge_record now work cur inc b =
      "tree " ++ ("\n" ++ (("parent " ++ cur) ++ ("\n" ++ (("parent " ++ inc) ++ ("\n" ++
        ("author " ++ ("Samuel Godad and Firamit Megersa <godadsamuel@gmail.com> " ++ now ++
          "\ncommitter Samuel Godad and Firamit Megersa <godadsamuel@gmail.com> " ++ now ++
          ("\n\n" ++ ("Merge branch \"" ++ b ++ "\"") ++ "\n") ++ tail))))))) := by
    unfold merge_record
    rw [ht]
    have e1 : ("\nparent " : String) = "\n" ++ "parent " := by decide
    have e2 : ("\nauthor Samuel Godad and Firamit Megersa <godadsamuel@gmail.com> " : String) =
        "\n" ++ ("author " ++ "Samuel Godad and Firamit Megersa <godadsamuel@gmail.com> ") := by
      decide
    unfold signature_lines
    rw [e1, e2]
    simp only [String.append_assoc]
  have h1 : '\n' ∉ ("tree " : String).data := by decide
  have h2 : '\n' ∉ ("parent " ++ cur).data := by
    rw [String.data_append]
    intro hm
    rcases List.mem_append.mp hm with hm | hm
    · exact absurd hm (by decide)
    · exact hc hm
  have h3 : '\n' ∉ ("parent " ++ inc).data := by
    rw [String.data_append]
    intro hm
    rcases List.mem_append.mp hm with hm | hm
    · exact absurd hm (by decide)
    · exact hi hm
  obtain ⟨l, rest, hl, hs⟩ := getlines_head "author "
    ("Samuel Godad and Firamit Megersa <godadsamuel@gmail.com> " ++ now ++
      "\ncommitter Samuel Godad and Firamit Megersa <godadsamuel@gmail.com> " ++ now ++
      ("\n\n" ++ ("Merge branch \"" ++ b ++ "\"") ++ "\n") ++ tail) (by decide) (by decide)
  refine ⟨l, rest, ?_, hs⟩
  rw [hshape, getlines_line _ _ h1, getlines_line _ _ h2, getlines_line _ _ h3, hl]

theorem hexChars_getD_mem (i : Nat) : hexChars.getD i '0' ∈ hexChars := by
  rcases Nat.lt_or_ge i hexChars.length with h | h
  · rw [List.getD_eq_getElem _ _ h]
    exact List.getElem_mem h
  · rw [List.getD_eq_default _ _ h]
    decide

theorem sig2hex_fold_chars (sig : List Nat) :
    ∀ (l : List Nat) (acc : String), (∀ c ∈ acc.data, c ∈ hexChars) →
      ∀ c ∈ (l.foldl
        (fun hex i =>
          (hex.push (hexChars.getD (((sig.getD i 0) >>> 4) &&& 0xF) '0')).push
            (hexChars.getD ((sig.getD i 0) &&& 0xF) '0')) acc).data, c ∈ hexChars := by
  intro l
  induction l with
  | nil => intro acc h; simpa using h
  | cons i l ih =>
    intro acc h
    simp only [List.foldl_cons]
    apply ih
    intro c hc
    simp only [String.data_push, List.mem_append, List.mem_singleton] at hc
    rcases hc with (hc | hc) | hc
    · exact h c hc
    · rw [hc]; exact hexChars_getD_mem _
    · rw [hc]; exact hexChars_getD_mem _

theorem sig2hex_chars (sig : List Nat) : ∀ c ∈ (sig2hex sig).data, c ∈ hexChars :=
  sig2hex_fold_chars sig (List.range 20) "" (by simp)

theorem sig2hex_no_newline (sig : List Nat) : '\n' ∉ (sig2hex sig).data := by
  intro h
  exact absurd (sig2hex_chars sig _ h) (by decide)
theorem merge_current_hash_no_newline (r : Repo) : '\n' ∉ (merge_current_hash r).data := by
  unfold merge_current_hash getline_into
  split
  · simp
  · exact first_line_no_newline _

/-! ## Lemmas on files and maps -/

theorem lookup_cons_ite (m n c : String) (d : List (String × String)) :
    List.lookup m ((n, c) :: d) = if m = n then some c else List.lookup m d := by
  by_cases h : m = n
  · subst h
    simp [List.lookup]
  · have hb : (m == n) = false := by simpa using h
    simp [List.lookup, hb, h]

theorem Files.open_read_write (d : Files) (n c m : String) :
    (Files.write d n c).open_read m = if m = n then some c else d.open_read m := by
  induction d with
  | nil => simp [Files.write, Files.open_read, lookup_cons_ite]
  | cons e d ih =>
    obtain ⟨n', c'⟩ := e
    simp only [Files.open_read] at ih
    by_cases hn : n' = n
    · subst hn
      simp only [Files.write, Files.open_read, if_true, lookup_cons_ite]
      by_cases hm : m = n' <;> simp [hm]
    · simp only [Files.write, Files.open_read, hn, if_false, lookup_cons_ite, ih]
      by_cases hm : m = n'
      · have : m ≠ n := fun e => hn (hm.symm.trans e)
        simp [hm, hn]
      · simp [hm]

theorem Files.open_read_remove_ne (d : Files) (n m : String) (h : m ≠ n) :
    (Files.remove d n).open_read m = d.open_read m := by
  induction d with
  | nil => rfl
  | cons e d ih =>
    obtain ⟨n', c'⟩ := e
    simp only [Files.open_read, Files.remove] at ih
    by_cases hn : n' = n
    · subst hn
      simp only [Files.remove, Files.open_read, List.filter, bne_self_eq_false, lookup_cons_ite,
        h, if_false]
      exact ih
    · have hb : (n' != n) = true := by simpa using hn
      simp only [Files.remove, Files.open_read, List.filter, hb, lookup_cons_ite]
      rw [ih]

theorem SMap.find_insert (m : SMap) (k v k2 : String) :
    (SMap.insert m k v).find k2 = if k2 = k then some v else m.find k2 := by
  induction m with
  | nil => simp [SMap.insert, SMap.find, lookup_cons_ite]
  | cons e m ih =>
    obtain ⟨k1, v1⟩ := e
    simp only [SMap.find] at ih
    by_cases hlt : str_lt k k1 = true
    · simp only [SMap.insert, SMap.find, hlt, if_true, lookup_cons_ite]
    · have hlt' : str_lt k k1 = false := by simpa using hlt
      by_cases hk : k = k1
      · subst hk
        simp only [SMap.insert, SMap.find, hlt', Bool.false_eq_true, if_false, if_true,
          lookup_cons_ite]
        by_cases h2 : k2 = k <;> simp [h2]
      · simp only [SMap.insert, SMap.find, hlt', Bool.false_eq_true, hk, if_false,
          lookup_cons_ite, ih]
        by_cases h2 : k2 = k1
        · have : k2 ≠ k := fun e => hk (e.symm.trans h2)
          simp [h2, Ne.symm hk]
        · simp [h2]

theorem SMap.index_fst (m : SMap) (k : String) :
    (SMap.index m k).1 = (m.find k).getD "" := by
  unfold SMap.index
  cases m.find k <;> rfl

theorem SMap.find_index_ne (m : SMap) (k k2 : String) (h : k2 ≠ k) :
    (SMap.index m k).2.find k2 = m.find k2 := by
  unfold SMap.index
  cases hf : m.find k with
  | none => simp [SMap.find_insert, h]
  | some v => rfl

theorem SMap.find_index_of_some (m : SMap) (k k2 v : String) (h : m.find k2 = some v) :
    (SMap.index m k).2.find k2 = some v := by
  by_cases hk : k2 = k
  · subst hk
    unfold SMap.index
    simp [h]
  · rw [SMap.find_index_ne m k k2 hk, h]

/-! ## The key order and sorted maps -/

theorem chars_lt_irrefl (a : List Char) : chars_lt a a = false := by
  induction a with
  | nil => rfl
  | cons c cs ih => simp [chars_lt, ih]

theorem chars_lt_trans :
    ∀ (a b c : List Char), chars_lt a b = true → chars_lt b c = true → chars_lt a c = true := by
  intro a
  induction a with
  | nil =>
    intro b c hab hbc
    cases b with
    | nil => simp [chars_lt] at hab
    | cons y ys =>
      cases c with
      | nil => simp [chars_lt] at hbc
      | cons z zs => simp [chars_lt]
  | cons x xs ih =>
    intro b c hab hbc
    cases b with
    | nil => simp [chars_lt] at hab
    | cons y ys =>
      cases c with
      | nil => simp [chars_lt] at hbc
      | cons z zs =>
        simp only [chars_lt] at hab hbc ⊢
        by_cases hxy : x.toNat < y.toNat
        · by_cases hyz : y.toNat < z.toNat
          · have : x.toNat < z.toNat := by omega
            simp [this]
          · by_cases hzy : z.toNat < y.toNat
            · simp [hyz, hzy] at hbc
            · have : x.toNat < z.toNat := by omega
              simp [this]
        · by_cases hyx : y.toNat < x.toNat
          · simp [hxy, hyx] at hab
          · simp only [hxy, hyx, if_false] at hab
            by_cases hyz : y.toNat < z.toNat
            · have : x.toNat < z.toNat := by omega
              simp [this]
            · by_cases hzy : z.toNat < y.toNat
              · simp [hyz, hzy] at hbc
              · simp only [hyz, hzy, if_false] at hbc
                have h1 : ¬ x.toNat < z.toNat := by omega
                have h2 : ¬ z.toNat < x.toNat := by omega
                simp only [h1, h2, if_false]
                exact ih ys zs hab hbc

theorem chars_lt_total :
    ∀ (a b : List Char), chars_lt a b = false → chars_lt b a = false → a = b := by
  intro a
  induction a with
  | nil =>
    intro b hab _
    cases b with
    | nil => rfl
    | cons y ys => simp [chars_lt] at hab
  | cons x xs ih =>
    intro b hab hba
    cases b with
    | nil => simp [chars_lt] at hba
    | cons y ys =>
      simp only [chars_lt] at hab hba
      by_cases hxy : x.toNat < y.toNat
      · simp [hxy] at hab
      · by_cases hyx : y.toNat < x.toNat
        · simp [hyx] at hba
        · simp only [hxy, hyx, if_false] at hab hba
          have hn : x.toNat = y.toNat := by omega
          have hc : x = y := by
            rw [← Char.ofNat_toNat x, ← Char.ofNat_toNat y, hn]
          rw [hc, ih ys hab hba]

theorem str_lt_irrefl (k : String) : str_lt k k = false :=
  chars_lt_irrefl k.data

theorem str_lt_trans (a b c : String) (hab : str_lt a b = true) (hbc : str_lt b c = true) :
    str_lt a c = true :=
  chars_lt_trans a.data b.data c.data hab hbc

theorem str_lt_total (a b : String) (hab : str_lt a b = false) (hne : a ≠ b) :
    str_lt b a = true := by
  cases hba : str_lt b a with
  | true => rfl
  | false =>
    exact absurd (String.ext (chars_lt_total a.data b.data hab hba)) hne

theorem SMap.mem_insert (m : SMap) (k v : String) (e : String × String)
    (h : e ∈ SMap.insert m k v) : e = (k, v) ∨ e ∈ m := by
  induction m with
  | nil => simpa [SMap.insert] using h
  | cons e1 m ih =>
    obtain ⟨k1, v1⟩ := e1
    by_cases hlt : str_lt k k1 = true
    · simp only [SMap.insert, hlt, if_true, List.mem_cons] at h
      rcases h with h | h | h
      · exact Or.inl h
      · exact Or.inr (by simp [h])
      · exact Or.inr (by simp [h])
    · have hlt' : str_lt k k1 = false := by simpa using hlt
      by_cases hk : k = k1
      · subst hk
        simp only [SMap.insert, hlt', Bool.false_eq_true, if_false, if_true,
          List.mem_cons] at h
        rcases h with h | h
        · exact Or.inl h
        · exact Or.inr (by simp [h])
      · simp only [SMap.insert, hlt', Bool.false_eq_true, if_false, hk, List.mem_cons] at h
        rcases h with h | h
        · exact Or.inr (by simp [h])
        · rcases ih h with h | h
          · exact Or.inl h
          · exact Or.inr (by simp [h])

theorem SMap.sorted_insert (m : SMap) (k v : String) (hs : SMap.sorted m) :
    SMap.sorted (SMap.insert m k v) := by
  induction m with
  | nil => simp [SMap.insert, SMap.sorted]
  | cons e1 m ih =>
    obtain ⟨k1, v1⟩ := e1
    obtain ⟨hall, hs'⟩ := hs
    by_cases hlt : str_lt k k1 = true
    · simp only [SMap.insert, hlt, if_true]
      refine ⟨?_, hall, hs'⟩
      intro e he
      rcases List.mem_cons.mp he with he | he
      · rw [he]; exact hlt
      · exact str_lt_trans k k1 e.1 hlt (hall e he)
    · have hlt' : str_lt k k1 = false := by simpa using hlt
      by_cases hk : k = k1
      · subst hk
        simp only [SMap.insert, hlt', Bool.false_eq_true, if_false, if_true]
        exact ⟨hall, hs'⟩
      · simp only [SMap.insert, hlt', Bool.false_eq_true, if_false, hk]
        refine ⟨?_, ih hs'⟩
        intro e he
        rcases SMap.mem_insert m k v e he with he | he
        · rw [he]; exact str_lt_total k k1 hlt' hk
        · exact hall e he

theorem parse_files_sorted :
    ∀ (lines : List String) (b : Bool) (files : SMap),
      SMap.sorted files → SMap.sorted (parse_files lines b files) := by
  intro lines
  induction lines with
  | nil => intro b files hs; simpa [parse_files] using hs
  | cons line rest ih =>
    intro b files hs
    unfold parse_files
    split
    · exact ih _ _ hs
    · split
      · exact ih _ _ hs
      · split
        · split
          · exact ih _ _ (SMap.sorted_insert _ _ _ hs)
          · exact ih _ _ hs
        · exact ih _ _ hs

theorem get_files_from_commit_sorted (objects : Files) (commit_hash : String) :
    SMap.sorted (get_files_from_commit objects commit_hash) :=
  parse_files_sorted _ _ _ trivial

theorem SMap.find_mem (m : SMap) (k v : String) (h : m.find k = some v) : (k, v) ∈ m := by
  induction m with
  | nil => simp [SMap.find] at h
  | cons e m ih =>
    obtain ⟨k1, v1⟩ := e
    simp only [SMap.find, lookup_cons_ite] at h ih
    by_cases hk : k = k1
    · simp only [hk, if_true, Option.some.injEq] at h
      simp [hk, h]
    · simp only [hk, if_false] at h
      exact List.mem_cons_of_mem _ (ih h)

/-! ## Lemmas on the loops of `merge` -/

theorem add_work (r : Repo) (f : String) : (add r f).work = r.work := by
  unfold add
  split
  · rfl
  · dsimp only
    split <;> rfl

theorem add_head (r : Repo) (f : String) : (add r f).head = r.head := by
  unfold add
  split
  · rfl
  · dsimp only
    split <;> rfl

theorem add_heads (r : Repo) (f : String) : (add r f).heads = r.heads := by
  unfold add
  split
  · rfl
  · dsimp only
    split <;> rfl

theorem add_objects (r : Repo) (f : String) :
    (add r f).objects = r.objects ∨
      ∃ content, r.work.open_read f = some content ∧
        (add r f).objects = r.objects.write (calculate_file_sha1 content) content := by
  unfold add
  split
  · exact Or.inl rfl
  · rename_i content hc
    dsimp only
    split
    · exact Or.inl rfl
    · exact Or.inr ⟨content, hc, rfl⟩

theorem delete_fold_frame (merge_files ancestor_files : SMap) :
    ∀ (l : List (String × String)) (r : Repo),
      (l.foldl (delete_step merge_files ancestor_files) r).head = r.head ∧
      (l.foldl (delete_step merge_files ancestor_files) r).heads = r.heads ∧
      (l.foldl (delete_step merge_files ancestor_files) r).objects = r.objects ∧
      (l.foldl (delete_step merge_files ancestor_files) r).index = r.index ∧
      ∀ p, (merge_files.find p).isSome = true →
        (l.foldl (delete_step merge_files ancestor_files) r).work.open_read p =
          r.work.open_read p := by
  intro l
  induction l with
  | nil => intro r; exact ⟨rfl, rfl, rfl, rfl, fun _ _ => rfl⟩
  | cons e l ih =>
    intro r
    obtain ⟨g1, g2, g3, g4, g5⟩ := ih (delete_step merge_files ancestor_files r e)
    simp only [List.foldl_cons]
    have hstep : (delete_step merge_files ancestor_files r e).head = r.head ∧
        (delete_step merge_files ancestor_files r e).heads = r.heads ∧
        (delete_step merge_files ancestor_files r e).objects = r.objects ∧
        (delete_step merge_files ancestor_files r e).index = r.index ∧
        ∀ p, (merge_files.find p).isSome = true →
          (delete_step merge_files ancestor_files r e).work.open_read p =
            r.work.open_read p := by
      unfold delete_step
      split
      · rename_i hcond
        refine ⟨rfl, rfl, rfl, rfl, fun p hp => ?_⟩
        have hpe : p ≠ e.1 := by
          intro heq
          rw [heq] at hp
          simp only [Bool.and_eq_true, Option.isNone_iff_eq_none] at hcond
          rw [hcond.1] at hp
          exact Bool.noConfusion hp
        exact Files.open_read_remove_ne r.work e.1 p hpe
      · exact ⟨rfl, rfl, rfl, rfl, fun _ _ => rfl⟩
    obtain ⟨s1, s2, s3, s4, s5⟩ := hstep
    exact ⟨g1.trans s1, g2.trans s2, g3.trans s3, g4.trans s4,
      fun p hp => (g5 p hp).trans (s5 p hp)⟩

/-! ## Lemmas on `find_common_ancestor` -/

theorem ancestor_path_mem (objects : Files) :
    ∀ (fuel : Nat) (cur : String) (acc p : List String),
      ancestor_path objects fuel cur acc = some p →
        (∀ x ∈ acc, x ∈ p) ∧ (cur ≠ "" → cur ∈ p) := by
  intro fuel
  induction fuel with
  | zero =>
    intro cur acc p h
    by_cases hc : cur = ""
    · simp [ancestor_path, hc] at h
      subst h
      exact ⟨fun x hx => hx, fun hne => absurd hc hne⟩
    · simp [ancestor_path, hc] at h
  | succ fuel ih =>
    intro cur acc p h
    by_cases hc : cur = ""
    · simp [ancestor_path, hc] at h
      subst h
      exact ⟨fun x hx => hx, fun hne => absurd hc hne⟩
    · simp only [ancestor_path, hc, if_false] at h
      obtain ⟨hacc, _⟩ := ih _ _ _ h
      exact ⟨fun x hx => hacc x (List.mem_append_left _ hx),
        fun _ => hacc cur (List.mem_append_right _ (List.mem_singleton_self cur))⟩

theorem ancestor_path_succ (objects : Files) :
    ∀ (fuel : Nat) (cur : String) (acc p : List String),
      ancestor_path objects fuel cur acc = some p →
        ancestor_path objects (fuel + 1) cur acc = some p := by
  intro fuel
  induction fuel with
  | zero =>
    intro cur acc p h
    by_cases hc : cur = ""
    · simpa [ancestor_path, hc] using h
    · simp [ancestor_path, hc] at h
  | succ fuel ih =>
    intro cur acc p h
    by_cases hc : cur = ""
    · simpa [ancestor_path, hc] using h
    · rw [ancestor_path] at h ⊢
      simp only [hc, if_false] at h ⊢
      exact ih _ _ _ h

theorem ancestor_path_mono (objects : Files) (fuel : Nat) (cur : String) (acc p : List String)
    (h : ancestor_path objects fuel cur acc = some p) :
    ∀ k, ancestor_path objects (fuel + k) cur acc = some p := by
  intro k
  induction k with
  | zero => exact h
  | succ k ih => exact ancestor_path_succ objects (fuel + k) cur acc p ih

theorem ancestor_path_unique (objects : Files) (f1 f2 : Nat) (cur : String)
    (acc p1 p2 : List String)
    (h1 : ancestor_path objects f1 cur acc = some p1)
    (h2 : ancestor_path objects f2 cur acc = some p2) : p1 = p2 := by
  rcases Nat.le_total f1 f2 with hle | hle
  · obtain ⟨k, rfl⟩ := Nat.exists_eq_add_of_le hle
    have := ancestor_path_mono objects f1 cur acc p1 h1 k
    rw [this] at h2
    exact Option.some.inj h2
  · obtain ⟨k, rfl⟩ := Nat.exists_eq_add_of_le hle
    have := ancestor_path_mono objects f2 cur acc p2 h2 k
    rw [this] at h1
    exact (Option.some.inj h1).symm

theorem ancestor_search_succ (objects : Files) (path1 : List String) :
    ∀ (fuel : Nat) (cur x : String),
      ancestor_search objects path1 fuel cur = some x →
        ancestor_search objects path1 (fuel + 1) cur = some x := by
  intro fuel
  induction fuel with
  | zero =>
    intro cur x h
    by_cases hc : cur = ""
    · simpa [ancestor_search, hc] using h
    · simp [ancestor_search, hc] at h
  | succ fuel ih =>
    intro cur x h
    by_cases hc : cur = ""
    · simpa [ancestor_search, hc] using h
    · by_cases hm : cur ∈ path1
      · simpa [ancestor_search, hc, hm] using h
      · have hm' : path1.contains cur = false := by simpa using hm
        rw [ancestor_search] at h ⊢
        simp only [hc, if_false, hm', Bool.false_eq_true] at h ⊢
        exact ih _ _ h

theorem find_common_ancestor_mono (objects : Files) (fuel : Nat) (a b x : String)
    (h : find_common_ancestor objects fuel a b = some x) :
    ∀ k, find_common_ancestor objects (fuel + k) a b = some x := by
  intro k
  induction k with
  | zero => exact h
  | succ k ih =>
    unfold find_common_ancestor at ih ⊢
    cases hp : ancestor_path objects (fuel + k) a [] with
    | none => simp [hp] at ih
    | some path1 =>
      rw [hp] at ih
      have hp' := ancestor_path_succ objects (fuel + k) a [] path1 hp
      rw [show fuel + (k + 1) = fuel + k + 1 from rfl, hp']
      exact ancestor_search_succ objects path1 (fuel + k) b x ih

theorem ancestor_search_stuck (objects : Files) (path1 : List String) (cur : String)
    (hne : cur ≠ "") (hnot : path1.contains cur = false)
    (hroot : find_parent_line (object_lines objects cur) = "") :
    ∀ fuel, ancestor_search objects path1 fuel cur = none := by
  intro fuel
  have hnot' : cur ∉ path1 := by simpa using hnot
  induction fuel with
  | zero => simp [ancestor_search, hne]
  | succ fuel ih => simp [ancestor_search, hne, hnot', hroot, ih]

theorem find_common_ancestor_stuck (objects : Files) (a b : String)
    (hne : b ≠ "")
    (hnot : ∀ fuel path1, ancestor_path objects fuel a [] = some path1 →
      path1.contains b = false)
    (hroot : find_parent_line (object_lines objects b) = "") :
    ∀ fuel, find_common_ancestor objects fuel a b = none := by
  intro fuel
  unfold find_common_ancestor
  cases hp : ancestor_path objects fuel a [] with
  | none => rfl
  | some path1 => exact ancestor_search_stuck objects path1 b hne (hnot fuel path1 hp) hroot fuel

/-! ## Claims on the diff engine -/

/-- C1: for every pair of line sequences `a` and `b`, `diff` produces a record list that is a
valid alignment: the lines of its `equal` and `removed` records, in output order, are exactly
`a`, and the lines of its `equal` and `added` records, in output order, are exactly `b`;
on `["a","b","c"]` against `["a","x","c"]` the records are
`[equal a, removed b, added x, equal c]`. -/
theorem diff_valid_alignment :
    (∀ a b : List String, ∃ r, diff a b = some r ∧
        DiffRecord.sideA r = a ∧ DiffRecord.sideB r = b) ∧
    diff ["a", "b", "c"] ["a", "x", "c"] =
      some [DiffRecord.equal "a", DiffRecord.removed "b", DiffRecord.added "x",
        DiffRecord.equal "c"] := by
  refine ⟨fun a b => ?_, by decide⟩
  simpa [diff] using diffLoop_aligned a b (a.length + b.length) 0 0 (by omega)

/-- C2: `diff` terminates on every pair of line sequences (the iterations supplied, one per
input line, always suffice), and the degenerate cases are uniform: `diff a a` is one `equal`
record per line of `a`, `diff [] b` is one `added` record per line of `b`, and `diff a []`
is one `removed` record per line of `a`, each in order. -/
theorem diff_terminates_degenerate :
    (∀ a b : List String, ∃ r, diff a b = some r) ∧
    (∀ a : List String, diff a a = some (a.map DiffRecord.equal)) ∧
    (∀ b : List String, diff [] b = some (b.map DiffRecord.added)) ∧
    (∀ a : List String, diff a [] = some (a.map DiffRecord.removed)) := by
  refine ⟨fun a b => ?_, fun a => ?_, fun b => ?_, fun a => ?_⟩
  · obtain ⟨r, hr, _⟩ := diffLoop_aligned a b (a.length + b.length) 0 0 (by omega)
    exact ⟨r, hr⟩
  · simpa [diff] using diffLoop_same a (a.length + a.length) 0 (by omega)
  · simpa [diff] using diffLoop_nil_left b (0 + b.length) 0 (by omega)
  · simpa [diff] using diffLoop_nil_right a (a.length + 0) 0 (by omega)

/-! ## Claims on the merge-base search -/

/-- C3: for every commit digest `c` whose first-parent chain in the object store is finite
(the first loop of `find_common_ancestor` returns within the given number of iterations),
`find_common_ancestor(c, c)` returns `c`. -/
theorem find_common_ancestor_self (objects : Files) (fuel : Nat) (c : String)
    (hfinite : (ancestor_path objects fuel c []).isSome) :
    find_common_ancestor objects fuel c c = some c := by
  unfold find_common_ancestor
  cases hp : ancestor_path objects fuel c [] with
  | none => simp [hp] at hfinite
  | some path1 =>
    by_cases hc : c = ""
    · cases fuel <;> simp [ancestor_search, hc]
    · have hmem : c ∈ path1 := (ancestor_path_mem objects fuel c [] path1 hp).2 hc
      cases fuel with
      | zero => simp [ancestor_path, hc] at hp
      | succ fuel => simp [ancestor_search, hc, hmem]

/-- Witness of C3 on the history of the scenario: the chain of `ff_second` has two commits. -/
theorem find_common_ancestor_self_witness :
    (ancestor_path ff_repo.objects 3 ff_second []).isSome ∧
      find_common_ancestor ff_repo.objects 3 ff_second ff_second = some ff_second :=
  ⟨by decide, find_common_ancestor_self ff_repo.objects 3 ff_second (by decide)⟩

/-- C4 (failing input): in the repository of the scenario the first commit is the root of both
tips, yet `find_common_ancestor(first, second)` returns the empty string for every number of
iterations that lets it return; the empty string is no ancestor of either tip (ancestor sets
taken over all parent edges, self-inclusive). -/
theorem find_common_ancestor_returns_no_commit :
    (∀ fuel, 2 ≤ fuel →
      find_common_ancestor ff_repo.objects fuel ff_first ff_second = some "") ∧
    ff_first ∈ ancestor_set ff_repo.objects 4 [ff_first] [] ∧
    ff_first ∈ ancestor_set ff_repo.objects 4 [ff_second] [] ∧
    "" ∉ ancestor_set ff_repo.objects 4 [ff_first] [] ∧
    "" ∉ ancestor_set ff_repo.objects 4 [ff_second] [] := by
  refine ⟨fun fuel hfuel => ?_, by decide, by decide, by decide, by decide⟩
  obtain ⟨k, rfl⟩ := Nat.exists_eq_add_of_le hfuel
  exact find_common_ancestor_mono ff_repo.objects 2 ff_first ff_second "" (by decide) k

/-- C5 (failing input): in `two_roots_repo` the commit on `master` records no parent and is not
an ancestor of the commit on `topic`; on this finite acyclic store the search
`find_common_ancestor(topic, master)` is still running after any number of iterations: it
never reports `Unrelated`. -/
theorem find_common_ancestor_diverges_on_root :
    all_parents two_roots_repo.objects tr_master = [] ∧
    tr_master ∉ ancestor_set two_roots_repo.objects 4 [tr_topic] [] ∧
    ∀ fuel, find_common_ancestor two_roots_repo.objects fuel tr_topic tr_master = none := by
  refine ⟨by decide, by decide, ?_⟩
  refine find_common_ancestor_stuck two_roots_repo.objects tr_topic tr_master (by decide) ?_
    (by decide)
  intro fuel path1 hp
  have h2 : ancestor_path two_roots_repo.objects 2 tr_topic [] =
      some [tr_topic, "ref: refs/heads/master"] := by decide
  rw [ancestor_path_unique two_roots_repo.objects fuel 2 tr_topic [] path1 _ hp h2]
  decide

/-! ## Claims on `merge` -/

/-- More iterations never change what `merge` returns. -/
theorem merge_mono (now : String) (fuel : Nat) (r : Repo) (branch_to_merge : String)
    (x : Repo × MergeOutcome) (h : merge now fuel r branch_to_merge = some x) :
    ∀ k, merge now (fuel + k) r branch_to_merge = some x := by
  intro k
  unfold merge at h ⊢
  simp only at h ⊢
  split
  · simpa [*] using h
  · rename_i hsym
    simp only [hsym, if_false] at h
    split
    · rename_i hb
      simpa [hb] using h
    · rename_i hb
      simp only [hb, if_false] at h
      split
      · rename_i heq
        simpa [heq] using h
      · rename_i hne
        simp only [hne, if_false] at h
        cases hf : find_common_ancestor r.objects fuel (merge_current_hash r)
            (getline_into (r.heads.open_read branch_to_merge) "") with
        | none => simp [hf] at h
        | some base =>
          rw [hf] at h
          rw [find_common_ancestor_mono _ _ _ _ _ hf k]
          exact h

set_option maxRecDepth 1000000 in
set_option maxHeartbeats 4000000 in
theorem hash_hello : hash "hello" = scenario_hash "hello" := by
  decide

set_option maxRecDepth 1000000 in
set_option maxHeartbeats 4000000 in
theorem hash_world : hash "world" = scenario_hash "world" := by
  decide

set_option maxRecDepth 1000000 in
set_option maxHeartbeats 4000000 in
theorem hash_ff_first_record : hash ff_first_record = scenario_hash ff_first_record := by
  decide

set_option maxRecDepth 1000000 in
set_option maxHeartbeats 4000000 in
theorem hash_ff_second_record : hash ff_second_record = scenario_hash ff_second_record := by
  decide

/-- The digests the scenario needs are those `scenario_hash` lists. -/
theorem hash_eq_scenario_hash : hash = scenario_hash := by
  funext message
  by_cases h1 : message = "hello"
  · rw [h1]; exact hash_hello
  · by_cases h2 : message = "world"
    · rw [h2]; exact hash_world
    · by_cases h3 : message = ff_first_record
      · rw [h3]; exact hash_ff_first_record
      · by_cases h4 : message = ff_second_record
        · rw [h4]; exact hash_ff_second_record
        · simp only [scenario_hash, h1, h2, h3, h4, if_false]
          rfl

set_option maxRecDepth 100000 in
theorem ff_step_add : add (init [("f", "hello")]) "f" = ff_staged := by
  unfold add calculate_file_sha1
  rw [hash_eq_scenario_hash]
  decide

set_option maxRecDepth 100000 in
theorem ff_step_commit : commit now0 ff_staged "first" = ff_committed := by
  unfold commit
  rw [hash_eq_scenario_hash]
  decide

set_option maxRecDepth 100000 in
theorem ff_step_branch : branch ff_committed "topic" = ff_branched := by
  decide

set_option maxRecDepth 100000 in
theorem ff_step_checkout : checkout ff_branched "topic" = some ff_on_topic := by
  decide

set_option maxRecDepth 100000 in
theorem ff_step_readd : add (edit ff_on_topic "f" "world") "f" = ff_restaged := by
  unfold add calculate_file_sha1
  rw [hash_eq_scenario_hash]
  decide

set_option maxRecDepth 100000 in
theorem ff_step_recommit : commit now0 ff_restaged "second" = ff_recommitted := by
  unfold commit
  rw [hash_eq_scenario_hash]
  decide

set_option maxRecDepth 100000 in
theorem ff_step_back : checkout ff_recommitted "master" = some ff_repo := by
  decide

/-- The commands of the scenario lead to `ff_repo`. -/
theorem fast_forward_scenario_eq : fast_forward_scenario = some ff_repo := by
  unfold fast_forward_scenario
  simp only [ff_step_add, ff_step_commit, ff_step_branch, ff_step_checkout, ff_step_readd,
    ff_step_recommit, ff_step_back]

set_option maxRecDepth 100000 in
/-- C6 (failing input): the scenario `init`, `add f` ("hello"), `commit first`, `branch topic`,
`checkout topic`, `f` := "world", `add f`, `commit second`, `checkout master` ends in
`ff_repo`; `merge topic` then reports a conflict in `f`, creates no merge commit and leaves
the repository as it was, with `f` still holding "hello". -/
theorem scenario_merge_reports_conflict :
    (∀ fuel, 2 ≤ fuel →
      fast_forward_scenario.bind (fun r => merge now0 fuel r "topic") =
        some (ff_repo, MergeOutcome.conflicts ["f"])) ∧
    ff_repo.work.open_read "f" = some "hello" := by
  refine ⟨fun fuel hfuel => ?_, by decide⟩
  obtain ⟨k, rfl⟩ := Nat.exists_eq_add_of_le hfuel
  rw [fast_forward_scenario_eq]
  exact merge_mono now0 2 ff_repo "topic" _ (by decide) k

set_option maxRecDepth 100000 in
/-- C7 (failing input): in `disjoint_repo` both tips descend from `base_commit`; `master`
changed only `f` and `topic` changed only `g`. `merge topic` reports conflicts in `f` and in
`g` and creates no merge commit. -/
theorem disjoint_merge_reports_conflicts :
    all_parents disjoint_repo.objects dj_master = [base_commit] ∧
    all_parents disjoint_repo.objects dj_topic = [base_commit] ∧
    get_files_from_commit disjoint_repo.objects base_commit =
      [("f", blob_hello), ("g", blob_one)] ∧
    get_files_from_commit disjoint_repo.objects dj_master =
      [("f", blob_world), ("g", blob_one)] ∧
    get_files_from_commit disjoint_repo.objects dj_topic =
      [("f", blob_hello), ("g", blob_two)] ∧
    ∀ fuel, 2 ≤ fuel →
      merge now0 fuel disjoint_repo "topic" =
        some (disjoint_repo, MergeOutcome.conflicts ["f", "g"]) := by
  refine ⟨by decide, by decide, by decide, by decide, by decide, fun fuel hfuel => ?_⟩
  obtain ⟨k, rfl⟩ := Nat.exists_eq_add_of_le hfuel
  exact merge_mono now0 2 disjoint_repo "topic" _ (by decide) k

set_option maxRecDepth 100000 in
/-- C10 (failing input): in `deletion_repo` the path `g` is bound to the same digest in the
merge base `base_commit` and in the current tip (also `base_commit`) and is absent from the
manifest of `topic`. `merge topic` commits a merge and `g` is still in the working
directory, holding "one". -/
theorem deletion_not_applied :
    all_parents deletion_repo.objects del_topic = [base_commit] ∧
    (get_files_from_commit deletion_repo.objects base_commit).find "g" = some blob_one ∧
    (get_files_from_commit deletion_repo.objects del_topic).find "g" = none ∧
    ∀ fuel, 2 ≤ fuel →
      (merge now0 fuel deletion_repo "topic").map
          (fun x => (x.2.committed, x.1.work.open_read "g")) =
        some (true, some "one") := by
  refine ⟨by decide, by decide, by decide, fun fuel hfuel => ?_⟩
  obtain ⟨k, rfl⟩ := Nat.exists_eq_add_of_le hfuel
  have h2 : (merge now0 2 deletion_repo "topic").map
      (fun x => (x.2.committed, x.1.work.open_read "g")) = some (true, some "one") := by
    decide
  cases hm : merge now0 2 deletion_repo "topic" with
  | none => simp [hm] at h2
  | some x =>
    rw [merge_mono now0 2 deletion_repo "topic" x hm k]
    rw [hm] at h2
    exact h2

/-- When the three precondition checks of `merge` pass and the common-ancestor search never
returns, `merge` never returns. -/
theorem merge_stuck (now : String) (r : Repo) (branch_to_merge : String)
    (hhead : starts_with (first_line r.head) "ref: refs/heads/" = true)
    (hexists : r.heads.path_exists branch_to_merge = true)
    (htips : merge_current_hash r ≠ getline_into (r.heads.open_read branch_to_merge) "")
    (hsearch : ∀ fuel, find_common_ancestor r.objects fuel (merge_current_hash r)
      (getline_into (r.heads.open_read branch_to_merge) "") = none) :
    ∀ fuel, merge now fuel r branch_to_merge = none := by
  intro fuel
  unfold merge
  simp only [hhead, hexists, htips, hsearch fuel, Bool.not_true, Bool.false_eq_true, if_false]

set_option maxRecDepth 100000 in
/-- C9 (failing input): in `two_roots_repo` the three precondition checks of `merge master`
pass: `HEAD` names `topic`, `master` is bound, and the two tips differ. The merge neither
reports a conflict nor stores a commit: it never returns, whatever the number of
iterations. -/
theorem merge_hangs_without_outcome :
    starts_with (first_line two_roots_repo.head) "ref: refs/heads/" = true ∧
    two_roots_repo.heads.open_read "master" = some (tr_master ++ "\n") ∧
    merge_current_hash two_roots_repo = tr_topic ∧
    getline_into (two_roots_repo.heads.open_read "master") "" = tr_master ∧
    tr_topic ≠ tr_master ∧
    ∀ now fuel, merge now fuel two_roots_repo "master" = none := by
  refine ⟨by decide, by decide, by decide, by decide, by decide, ?_⟩
  intro now
  refine merge_stuck now two_roots_repo "master" (by decide) (by decide) (by decide) ?_
  have e1 : merge_current_hash two_roots_repo = tr_topic := by decide
  have e2 : getline_into (two_roots_repo.heads.open_read "master") "" = tr_master := by decide
  rw [e1, e2]
  refine find_common_ancestor_stuck two_roots_repo.objects tr_topic tr_master (by decide) ?_
    (by decide)
  intro fuel path1 hp
  have h2 : ancestor_path two_roots_repo.objects 2 tr_topic [] =
      some [tr_topic, "ref: refs/heads/master"] := by decide
  rw [ancestor_path_unique two_roots_repo.objects fuel 2 tr_topic [] path1 _ hp h2]
  decide

/-! ## Lemmas on prefixes and digests -/

theorem starts_with_append (pre x : String) : starts_with (pre ++ x) pre = true := by
  unfold starts_with
  rw [List.isPrefixOf_iff_prefix, String.data_append]
  exact List.prefix_append _ _

theorem substr_from_append (pre x : String) : substr_from (pre ++ x) pre.data.length = x := by
  unfold substr_from
  apply String.ext
  simp [String.data_append]

theorem sig2hex_fold_length (sig : List Nat) :
    ∀ (l : List Nat) (acc : String),
      (l.foldl
        (fun hex i =>
          (hex.push (hexChars.getD (((sig.getD i 0) >>> 4) &&& 0xF) '0')).push
            (hexChars.getD ((sig.getD i 0) &&& 0xF) '0')) acc).data.length =
        acc.data.length + 2 * l.length := by
  intro l
  induction l with
  | nil => intro acc; simp
  | cons i l ih =>
    intro acc
    simp only [List.foldl_cons, List.length_cons]
    rw [ih]
    simp only [String.data_push, List.length_append, List.length_singleton]
    omega

theorem sig2hex_length (sig : List Nat) : (sig2hex sig).data.length = 40 := by
  unfold sig2hex
  rw [sig2hex_fold_length]
  simp

theorem sig2hex_ne_empty (sig : List Nat) : sig2hex sig ≠ "" := by
  intro h
  have := sig2hex_length sig
  rw [h] at this
  simp at this

/-! ## Claims on `branch` -/

/-- C19: for every name that is already bound to a branch, `branch(name)` fails and leaves
the whole state unchanged: the binding of `name`, every other branch, `HEAD`, the index, the
object store and the working directory. -/
theorem branch_existing_unchanged (r : Repo) (branch_name : String)
    (hbound : r.heads.file_exists branch_name = true) :
    branch r branch_name = r := by
  unfold branch
  simp [Files.path_exists, hbound]

/-- Witness of C19: `topic` is bound in the repository of the scenario. -/
theorem branch_existing_unchanged_witness :
    ff_repo.heads.file_exists "topic" = true ∧ branch ff_repo "topic" = ff_repo :=
  ⟨by decide, branch_existing_unchanged ff_repo "topic" (by decide)⟩

theorem repo_open_read_branch (r : Repo) (b : String) :
    r.open_read ("refs/heads/" ++ b) = r.heads.open_path b := by
  have hs : starts_with ("refs/heads/" ++ b) "refs/heads/" = true := starts_with_append _ _
  have h1 : ("refs/heads/" ++ b) ≠ "HEAD" := by
    intro h
    rw [h] at hs
    exact absurd hs (by decide)
  have h2 : ("refs/heads/" ++ b) ≠ "index" := by
    intro h
    rw [h] at hs
    exact absurd hs (by decide)
  unfold Repo.open_read
  simp only [h1, h2, hs, if_false, if_true]
  rw [show (11 : Nat) = ("refs/heads/" : String).data.length from by decide,
    substr_from_append]

theorem open_path_of_read (d : Files) (b content : String)
    (h : d.open_read b = some content) : d.open_path b = some content := by
  unfold Files.open_read at h
  unfold Files.open_path
  rw [h]

theorem plain_name_facts (n : String) (h : plain_name n = true) :
    n ≠ "" ∧ n ≠ "." ∧ n ≠ ".." ∧ '/' ∉ n.data ∧ object_route n = none := by
  unfold plain_name at h
  simp only [Bool.and_eq_true, bne_iff_ne, ne_eq, Bool.not_eq_true', List.contains_eq_any_beq,
    List.any_eq_false, beq_iff_eq] at h
  obtain ⟨⟨⟨h1, h2⟩, h3⟩, h4⟩ := h
  have hslash : '/' ∉ n.data := fun hm => h2 '/' hm rfl
  refine ⟨h1, h3, h4, hslash, ?_⟩
  unfold object_route
  by_cases hs : starts_with n "../../objects/" = true
  · exfalso
    unfold starts_with at hs
    rw [List.isPrefixOf_iff_prefix] at hs
    exact hslash (hs.subset (by decide))
  · simp [hs]

theorem path_exists_plain (d : Files) (n : String) (h : plain_name n = true) :
    d.path_exists n = d.file_exists n := by
  obtain ⟨h1, h2, h3, _, _⟩ := plain_name_facts n h
  simp [Files.path_exists, h1, h2, h3]

theorem branch_frame (r : Repo) (branch_name : String) :
    (branch r branch_name).head = r.head ∧ (branch r branch_name).index = r.index ∧
    (branch r branch_name).work = r.work ∧
    (object_route branch_name = none → (branch r branch_name).objects = r.objects) := by
  unfold branch
  simp only
  split
  · exact ⟨rfl, rfl, rfl, fun _ => rfl⟩
  · split
    · split
      · exact ⟨rfl, rfl, rfl, fun _ => rfl⟩
      · rename_i hroute _
        exact ⟨rfl, rfl, rfl, fun hn => by rw [hn] at hroute; exact absurd hroute (by simp)⟩
    · split <;> exact ⟨rfl, rfl, rfl, fun _ => rfl⟩

/-- What `branch` does for a plain, unbound name when `HEAD` resolves to a digest `d` (the
first line of the file of the branch `HEAD` names, or the line of `HEAD` itself when it is
detached): it writes `d` as the tip of the name and changes nothing else. -/
theorem branch_binds_plain_name (r : Repo) (branch_name d : String)
    (hname : plain_name branch_name = true) (hfree : r.heads.file_exists branch_name = false)
    (hresolves :
      (∃ b tip_file, first_line r.head = "ref: refs/heads/" ++ b ∧
        r.heads.open_read b = some tip_file ∧ first_line tip_file = d) ∨
      (starts_with (first_line r.head) "ref: " = false ∧ first_line r.head = d)) :
    (branch r branch_name).heads.open_read branch_name = some (d ++ "\n") ∧
    first_line (d ++ "\n") = d ∧
    (∀ n, n ≠ branch_name → (branch r branch_name).heads.open_read n = r.heads.open_read n) ∧
    (branch r branch_name).head = r.head ∧ (branch r branch_name).index = r.index ∧
    (branch r branch_name).objects = r.objects ∧ (branch r branch_name).work = r.work := by
  have hd : '\n' ∉ d.data := by
    rcases hresolves with ⟨b, tip_file, _, _, h⟩ | ⟨_, h⟩
    · rw [← h]; exact first_line_no_newline _
    · rw [← h]; exact first_line_no_newline _
  have hhash : (if starts_with (first_line r.head) "ref: " then
      getline_into (r.open_read (substr_from (first_line r.head) 5)) (first_line r.head)
      else first_line r.head) = d := by
    rcases hresolves with ⟨b, tip_file, h1, h2, h3⟩ | ⟨h1, h2⟩
    · have e : ("ref: refs/heads/" : String) ++ b = "ref: " ++ ("refs/heads/" ++ b) := by
        rw [← String.append_assoc]
        rfl
      rw [h1, e, starts_with_append]
      simp only [if_true]
      rw [show (5 : Nat) = ("ref: " : String).data.length from by decide, substr_from_append,
        repo_open_read_branch, open_path_of_read _ _ _ h2]
      exact h3
    · simp only [h1, Bool.false_eq_true, if_false]
      exact h2
  have hpath : r.heads.path_exists branch_name = false := by
    rw [path_exists_plain _ _ hname, hfree]
  have hroute : object_route branch_name = none := (plain_name_facts _ hname).2.2.2.2
  obtain ⟨f1, f2, f3, f4⟩ := branch_frame r branch_name
  refine ⟨?_, first_line_append_newline d hd, ?_, f1, f2, f4 hroute, f3⟩
  · unfold branch
    simp only [hpath, hroute, hname, Bool.false_eq_true, if_false, hhash, Files.open_read_write,
      if_true]
  · intro n hn
    unfold branch
    simp only [hpath, hroute, hname, Bool.false_eq_true, if_false, Files.open_read_write, hn,
      if_true]

set_option maxRecDepth 100000 in
/-- C20 (failing input): after the first commit of the scenario `HEAD` names `master`, whose
tip is the first commit, and no branch is named `a/b`. `branch a/b` binds nothing: the whole
state is as before and `a/b` is still unbound. -/
theorem branch_nested_name_binds_nothing :
    first_line ff_committed.head = "ref: refs/heads/master" ∧
    ff_committed.heads.open_read "master" = some (ff_first ++ "\n") ∧
    ff_committed.heads.file_exists "a/b" = false ∧
    branch ff_committed "a/b" = ff_committed ∧
    (branch ff_committed "a/b").heads.open_read "a/b" = none := by
  have hsame : branch ff_committed "a/b" = ff_committed := by decide
  refine ⟨by decide, by decide, by decide, hsame, ?_⟩
  rw [hsame]
  decide

/-- C18 (failing input): in a fresh repository (`init`, no commit yet) `HEAD` names `master`,
which has no branch file; for a plain `name`, `branch(name)` does not fail: afterwards the
branch `name` exists and its file holds the text of `HEAD`, `ref: refs/heads/master`, which is
no commit digest. -/
theorem branch_on_fresh_repo_binds (work : Files) (branch_name : String)
    (hname : plain_name branch_name = true) :
    (init work).heads.open_read "master" = none ∧
    (branch (init work) branch_name).heads.file_exists branch_name = true ∧
    (branch (init work) branch_name).heads.open_read branch_name =
      some "ref: refs/heads/master\n" := by
  have h1 : first_line (init work).head = "ref: refs/heads/master" := by
    show first_line "ref: refs/heads/master\n" = "ref: refs/heads/master"
    decide
  have h2 : (init work).open_read (substr_from "ref: refs/heads/master" 5) = none := by
    have e : substr_from "ref: refs/heads/master" 5 = "refs/heads/" ++ "master" := by decide
    rw [e, repo_open_read_branch]
    rfl
  have h0 : (init work).heads.path_exists branch_name = false := by
    rw [path_exists_plain _ _ hname]
    rfl
  have hroute : object_route branch_name = none := (plain_name_facts _ hname).2.2.2.2
  have h3 : (branch (init work) branch_name).heads =
      [(branch_name, "ref: refs/heads/master\n")] := by
    unfold branch
    simp only [h0, h1, h2, hroute, hname]
    rfl
  refine ⟨rfl, ?_, ?_⟩
  · rw [h3]
    simp [Files.file_exists, lookup_cons_ite]
  · rw [h3]
    simp [Files.open_read, lookup_cons_ite]

/-- Witness of C18: the name `topic` in an empty working directory. -/
theorem branch_on_fresh_repo_binds_witness :
    plain_name "topic" = true ∧
    (init []).heads.open_read "master" = none ∧
    (branch (init []) "topic").heads.file_exists "topic" = true ∧
    (branch (init []) "topic").heads.open_read "topic" = some "ref: refs/heads/master\n" :=
  ⟨by decide, branch_on_fresh_repo_binds [] "topic" (by decide)⟩

/-! ## Claims on `add` -/

theorem add_of_read (r : Repo) (filename file_content : String)
    (h : r.work.open_read filename = some file_content) :
    add r filename =
      { r with
        objects := r.objects.write (calculate_file_sha1 file_content) file_content
        index := r.index ++ (calculate_file_sha1 file_content ++ " " ++ filename ++ "\n") } := by
  have hne : calculate_file_sha1 file_content ≠ "" := sig2hex_ne_empty _
  unfold add
  simp only [h]
  rw [if_neg hne]

theorem Files.write_write_same (d : Files) (k c : String) :
    Files.write (Files.write d k c) k c = Files.write d k c := by
  induction d with
  | nil => simp [Files.write]
  | cons e d ih =>
    obtain ⟨n, c0⟩ := e
    by_cases hn : n = k
    · simp [Files.write, hn]
    · simp [Files.write, hn, ih]

theorem edit_read (r : Repo) (name content : String) :
    (edit r name content).work.open_read name = some content := by
  simp [edit, Files.open_read_write]

/-- C17: for every byte sequence `s`, adding a file with content `s` twice (the same path
again, or another path with the same bytes) appends the same digest to the index both times,
and the second `add` leaves the object store exactly as the first `add` left it, with `s`
stored under that digest. -/
theorem add_twice_same_store (r : Repo) (p q s : String)
    (hp : r.work.open_read p = some s) (hq : r.work.open_read q = some s) :
    (add r p).index = r.index ++ (calculate_file_sha1 s ++ " " ++ p ++ "\n") ∧
    (add (add r p) q).index = (add r p).index ++ (calculate_file_sha1 s ++ " " ++ q ++ "\n") ∧
    (add r p).objects.open_read (calculate_file_sha1 s) = some s ∧
    (add (add r p) q).objects = (add r p).objects := by
  have h1 := add_of_read r p s hp
  have hq2 : (add r p).work.open_read q = some s := by rw [add_work]; exact hq
  have h2 := add_of_read (add r p) q s hq2
  refine ⟨by rw [h1], by rw [h2], ?_, ?_⟩
  · rw [h1]
    simp only [Files.open_read_write, if_true]
  · rw [h2]
    simp only
    rw [h1]
    exact Files.write_write_same _ _ _

/-- Witness of C17: the file `f` of the scenario, holding "hello", added twice. -/
theorem add_twice_same_store_witness :
    (init [("f", "hello")]).work.open_read "f" = some "hello" ∧
    (add (init [("f", "hello")]) "f").index =
      (init [("f", "hello")]).index ++ (calculate_file_sha1 "hello" ++ " " ++ "f" ++ "\n") ∧
    (add (add (init [("f", "hello")]) "f") "f").index =
      (add (init [("f", "hello")]) "f").index ++
        (calculate_file_sha1 "hello" ++ " " ++ "f" ++ "\n") ∧
    (add (init [("f", "hello")]) "f").objects.open_read (calculate_file_sha1 "hello") =
      some "hello" ∧
    (add (add (init [("f", "hello")]) "f") "f").objects =
      (add (init [("f", "hello")]) "f").objects :=
  ⟨by decide,
    add_twice_same_store (init [("f", "hello")]) "f" "f" "hello" (by decide) (by decide)⟩

set_option maxRecDepth 100000 in
/-- C12 (the claim as stated fails): after `add f` with content "hello" and `add f` again
with content "world" in a fresh repository, the index lists `f` twice. -/
theorem index_lists_path_twice :
    staged_files
      (add (edit (add (init [("f", "hello")]) "f") "f" "world") "f").index = ["f", "f"] := by
  unfold add calculate_file_sha1
  rw [hash_eq_scenario_hash]
  decide

/-- C12 (amended): staging appends. After `add p` with content `s1` followed by `add p` with
content `s2` the index is what it was, followed by a line binding `p` to the digest of `s1`
and a line binding `p` to the digest of `s2`: the lines already there are unchanged and the
last line for `p` carries the digest of `s2`. -/
theorem add_appends_index_line (r : Repo) (p s1 s2 : String) :
    (add (edit (add (edit r p s1) p) p s2) p).index =
      r.index ++ (calculate_file_sha1 s1 ++ " " ++ p ++ "\n") ++
        (calculate_file_sha1 s2 ++ " " ++ p ++ "\n") := by
  have h1 := add_of_read (edit r p s1) p s1 (edit_read _ p s1)
  have h2 := add_of_read (edit (add (edit r p s1) p) p s2) p s2 (edit_read _ p s2)
  rw [h2]
  show (add (edit r p s1) p).index ++ (calculate_file_sha1 s2 ++ " " ++ p ++ "\n") = _
  rw [h1]
  rfl

/-! ## Claims on `commit` -/

theorem commit_eq (now : String) (r : Repo) (message : String) :
    commit now r message =
      { r with
        objects := r.objects.write (sig2hex (hash (commit_record now r message)))
          (commit_record now r message)
        head := "ref: refs/heads/" ++ commit_branch r ++ "\n"
        heads := r.heads.write (commit_branch r)
          (sig2hex (hash (commit_record now r message)) ++ "\n")
        index := "" } := by
  unfold commit commit_branch
  simp only
  by_cases h : (if starts_with (first_line r.head) "ref: refs/heads/" = true then
      substr_from (first_line r.head) 16 else "") = ""
  · have e : ("ref: refs/heads/master\n" : String) = "ref: refs/heads/" ++ "master" ++ "\n" := by
      decide
    simp only [h, ne_eq, not_true_eq_false, if_false, e]
  · simp only [h, ne_eq, not_false_eq_true, if_true]

theorem commit_objects (now : String) (r : Repo) (message : String) :
    (commit now r message).objects =
      r.objects.write (sig2hex (hash (commit_record now r message)))
        (commit_record now r message) := by
  rw [commit_eq]

theorem commit_heads (now : String) (r : Repo) (message : String) :
    (commit now r message).heads =
      r.heads.write (commit_branch r) (sig2hex (hash (commit_record now r message)) ++ "\n") := by
  rw [commit_eq]

theorem get_files_of_stored (objects : Files) (digest content : String)
    (hread : objects.open_read digest = some content) (hne : digest ≠ "") :
    get_files_from_commit objects digest = parse_files (getlines content) false [] := by
  unfold get_files_from_commit object_lines
  simp only [hne, if_false, hread]

set_option maxRecDepth 100000 in
/-- C11 (failing input): the index of `ff_staged` lists the single path `f`; sealed with the
message "first commit", the record read back by `get_files_from_commit` binds two paths: `f`
to its blob and the path `commit` to the digest `first`, both taken from the message line. -/
theorem message_line_read_as_entry :
    staged_files ff_staged.index = ["f"] ∧
    get_files_from_commit (commit now0 ff_staged "first commit").objects
        (sig2hex (hash (commit_record now0 ff_staged "first commit"))) =
      [("commit", "first"), ("f", blob_hello)] := by
  refine ⟨by decide, ?_⟩
  rw [get_files_of_stored _ _ (commit_record now0 ff_staged "first commit")
    (by rw [commit_objects]; simp only [Files.open_read_write, if_true]) (sig2hex_ne_empty _)]
  decide

/-! ## Claims on `log` -/

theorem log_walk_succ (objects : Files) :
    ∀ (fuel : Nat) (c : String) (visited : List String),
      log_walk objects fuel c = some visited → log_walk objects (fuel + 1) c = some visited := by
  intro fuel
  induction fuel with
  | zero =>
    intro c visited h
    by_cases hc : c = ""
    · simpa [log_walk, hc] using h
    · simp [log_walk, hc] at h
  | succ fuel ih =>
    intro c visited h
    by_cases hc : c = ""
    · simpa [log_walk, hc] using h
    · rw [log_walk, if_neg hc] at h
      rw [log_walk, if_neg hc]
      dsimp only at h ⊢
      generalize (if log_parent_line (object_lines objects c) "" ≠ "" then
        substr_from (log_parent_line (object_lines objects c) "") 7 else "") = next at h ⊢
      cases hw : log_walk objects fuel next with
      | none => rw [hw] at h; exact absurd h (by simp)
      | some rest =>
        rw [hw] at h
        rw [ih _ _ hw]
        exact h

theorem log_mono (fuel : Nat) (r : Repo) (visited : List String)
    (h : log fuel r = some visited) : ∀ k, log (fuel + k) r = some visited := by
  intro k
  induction k with
  | zero => exact h
  | succ k ih =>
    unfold log at ih ⊢
    exact log_walk_succ r.objects (fuel + k) _ visited ih

set_option maxRecDepth 100000 in
/-- C15 (failing input): in `merged_repo` the merge commit records `base_commit` as first
parent and `del_topic` as second. The chain of first recorded parents from the merge commit
is merge commit, `base_commit`; `log` visits merge commit, `del_topic`, `base_commit`: at the
merge commit it follows the second parent. -/
theorem log_follows_last_parent :
    all_parents merged_repo.objects del_merge = [base_commit, del_topic] ∧
    ancestor_path merged_repo.objects 2 del_merge [] = some [del_merge, base_commit] ∧
    ∀ fuel, 3 ≤ fuel → log fuel merged_repo = some [del_merge, del_topic, base_commit] := by
  refine ⟨by decide, by decide, fun fuel hfuel => ?_⟩
  obtain ⟨k, rfl⟩ := Nat.exists_eq_add_of_le hfuel
  exact log_mono 3 merged_repo _ (by decide) k

/-! ## The object store is content-addressed -/

set_option maxRecDepth 100000 in
/-- C16 (failing input): after `init`, `add f` and `commit first` every object of
`ff_committed` is stored under the digest of its content. `branch ../../objects/xyz` then
creates, through the path `.minigit/refs/heads/../../objects/xyz`, the object `xyz` holding
the line with the digest of the first commit: the key of that object is not the digest of its
content. -/
theorem branch_writes_into_object_store :
    commit now0 (add (init [("f", "hello")]) "f") "first" = ff_committed ∧
    content_addressed ff_committed.objects ∧
    ff_committed.heads.file_exists "../../objects/xyz" = false ∧
    (branch ff_committed "../../objects/xyz").objects.open_read "xyz" =
      some (ff_first ++ "\n") ∧
    "xyz" ≠ calculate_file_sha1 (ff_first ++ "\n") ∧
    ¬ content_addressed (branch ff_committed "../../objects/xyz").objects := by
  have hread : (branch ff_committed "../../objects/xyz").objects.open_read "xyz" =
      some (ff_first ++ "\n") := by decide
  have hkey : "xyz" ≠ calculate_file_sha1 (ff_first ++ "\n") := by
    intro h
    have hl := congrArg (fun x : String => x.data.length) h
    simp only [calculate_file_sha1, sig2hex_length] at hl
    exact absurd hl (by decide)
  refine ⟨by rw [ff_step_add, ff_step_commit], ?_, by decide, hread, hkey,
    fun hall => hkey (hall "xyz" _ hread)⟩
  intro k content h
  have h2 : (if k = blob_hello then some "hello"
      else if k = ff_first then some ff_first_record else none) = some content := by
    rw [← h]
    show _ = List.lookup k [(blob_hello, "hello"), (ff_first, ff_first_record)]
    rw [lookup_cons_ite, lookup_cons_ite]
    rfl
  by_cases h1 : k = blob_hello
  · simp only [h1, if_true, Option.some.injEq] at h2
    rw [h1, ← h2]
    unfold calculate_file_sha1
    rw [hash_eq_scenario_hash]
    decide
  · simp only [h1, if_false] at h2
    by_cases h3 : k = ff_first
    · simp only [h3, if_true, Option.some.injEq] at h2
      rw [h3, ← h2]
      unfold calculate_file_sha1
      rw [hash_eq_scenario_hash]
      decide
    · simp only [h3, if_false] at h2
      exact absurd h2 (by simp)

/-! ## Claims on `checkout` -/

theorem restore_fold_lookup (ob : String → String) :
    ∀ (lines : List String) (sec : Bool) (work : Files) (files : SMap),
      (∀ p, work.open_read p = if restorable p then (files.find p).map ob else none) →
      ∀ p, ((parse_file_list lines sec).foldl
          (fun work file_entry =>
            if restorable file_entry.2 then work.write file_entry.2 (ob file_entry.1) else work)
          work).open_read p =
        if restorable p then ((parse_files lines sec files).find p).map ob else none := by
  intro lines
  induction lines with
  | nil => intro sec work files h p; simpa [parse_file_list, parse_files] using h p
  | cons line rest ih =>
    intro sec work files h p
    unfold parse_file_list parse_files
    by_cases hh : (starts_with line "tree " || starts_with line "parent " ||
        starts_with line "author " || starts_with line "committer ") = true
    · simp only [hh, if_true]
      exact ih sec work files h p
    · simp only [hh, Bool.false_eq_true, if_false]
      by_cases he : line = ""
      · simp only [he, if_true]
        exact ih true work files h p
      · simp only [he, if_false]
        cases sec with
        | false =>
          simp only [Bool.false_and, Bool.false_eq_true, if_false]
          exact ih false work files h p
        | true =>
          simp only [Bool.true_and, if_true]
          by_cases hs : has_space line = true
          · simp only [hs, if_true, List.foldl_cons]
            refine ih true _ _ ?_ p
            intro q
            by_cases hr : restorable (after_space line) = true
            · simp only [hr, if_true, Files.open_read_write, SMap.find_insert]
              by_cases hq : q = after_space line
              · simp only [hq, if_true, hr, Option.map_some']
              · simp only [hq, if_false]
                exact h q
            · simp only [hr, Bool.false_eq_true, if_false, SMap.find_insert]
              by_cases hq : q = after_space line
              · rw [hq, h (after_space line)]
                simp only [hr, Bool.false_eq_true, if_false]
              · simp only [hq, if_false]
                exact h q
          · simp only [hs, Bool.false_eq_true, if_false]
            exact ih true work files h p

/-- The working directory `checkout` leaves: a restorable path of the manifest of the commit
checked out holds the bytes stored under its digest, and no other path exists. -/
theorem checkout_work (r r2 : Repo) (target : String) (h : checkout r target = some r2) :
    ∃ commit_hash,
      ((r.heads.path_exists target = true ∧
          commit_hash = getline_into (r.heads.open_read target) "" ∧
          r2.head = "ref: refs/heads/" ++ target ++ "\n") ∨
        (r.heads.path_exists target = false ∧ r.objects.path_exists target = true ∧
          commit_hash = target ∧ r2.head = target ++ "\n")) ∧
      ∀ p, r2.work.open_read p =
        if restorable p then
          ((get_files_from_commit r.objects commit_hash).find p).map (object_bytes r.objects)
        else none := by
  unfold checkout at h
  simp only at h
  by_cases hb : r.heads.path_exists target = true
  · simp only [hb, if_true, Option.some.injEq] at h
    refine ⟨getline_into (r.heads.open_read target) "", Or.inl ⟨hb, rfl, by rw [← h]⟩, ?_⟩
    intro p
    rw [← h]
    exact restore_fold_lookup (object_bytes r.objects) _ false [] []
      (fun q => by simp [Files.open_read, SMap.find]) p
  · simp only [hb, Bool.false_eq_true, if_false] at h
    by_cases ho : r.objects.path_exists target = true
    · simp only [ho, if_true, Option.some.injEq] at h
      refine ⟨target, Or.inr ⟨by simpa using hb, ho, rfl, by rw [← h]⟩, ?_⟩
      intro p
      rw [← h]
      exact restore_fold_lookup (object_bytes r.objects) _ false [] []
        (fun q => by simp [Files.open_read, SMap.find]) p
    · simp only [ho, Bool.false_eq_true, if_false] at h
      exact absurd h (by simp)

set_option maxRecDepth 100000 in
/-- C21 (failing input): a working directory whose only file is `d/f` ("hello"); after
`add d/f` and `commit first` the manifest of the commit binds `d/f` to the digest of "hello",
which is in the object store, and `master` points at the commit. `checkout master` leaves the
working directory empty: `d/f` is not restored. -/
theorem checkout_loses_nested_path :
    add (init [("d/f", "hello")]) "d/f" = nested_staged ∧
    (get_files_from_commit (commit now0 nested_staged "first").objects
        (sig2hex (hash (commit_record now0 nested_staged "first")))).find "d/f" =
      some blob_hello ∧
    ((commit now0 nested_staged "first").objects.open_read blob_hello).isSome = true ∧
    (commit now0 nested_staged "first").heads.open_read "master" =
      some (sig2hex (hash (commit_record now0 nested_staged "first")) ++ "\n") ∧
    checkout (commit now0 nested_staged "first") "master" =
      some { commit now0 nested_staged "first" with
        head := "ref: refs/heads/master\n", work := [] } := by
  have hD := sig2hex_ne_empty (hash (commit_record now0 nested_staged "first"))
  have hheads : (commit now0 nested_staged "first").heads =
      [("master", sig2hex (hash (commit_record now0 nested_staged "first")) ++ "\n")] := by
    rw [commit_heads]
    rfl
  have hobj : (commit now0 nested_staged "first").objects.open_read
      (sig2hex (hash (commit_record now0 nested_staged "first"))) =
        some (commit_record now0 nested_staged "first") := by
    rw [commit_objects]
    simp only [Files.open_read_write, if_true]
  have hmaster : (commit now0 nested_staged "first").heads.open_read "master" =
      some (sig2hex (hash (commit_record now0 nested_staged "first")) ++ "\n") := by
    rw [hheads]
    simp [Files.open_read, lookup_cons_ite]
  refine ⟨?_, ?_, ?_, hmaster, ?_⟩
  · unfold add calculate_file_sha1
    rw [hash_eq_scenario_hash]
    decide
  · rw [get_files_of_stored _ _ _ hobj hD]
    decide
  · rw [commit_objects, Files.open_read_write]
    split
    · rfl
    · decide
  · have hexists : (commit now0 nested_staged "first").heads.path_exists "master" = true := by
      unfold Files.path_exists Files.file_exists
      unfold Files.open_read at hmaster
      rw [hmaster]
      rfl
    have hline : first_line (sig2hex (hash (commit_record now0 nested_staged "first")) ++ "\n") =
        sig2hex (hash (commit_record now0 nested_staged "first")) :=
      first_line_append_newline _ (sig2hex_no_newline _)
    have hlines : object_lines (commit now0 nested_staged "first").objects
        (sig2hex (hash (commit_record now0 nested_staged "first"))) =
          getlines (commit_record now0 nested_staged "first") := by
      unfold object_lines
      simp only [hD, if_false, hobj]
    have hlist : parse_file_list (getlines (commit_record now0 nested_staged "first")) false =
        [(blob_hello, "d/f")] := by decide
    unfold checkout
    simp only [hexists, if_true, hmaster, getline_into, hline, hlines, hlist, List.foldl_cons,
      List.foldl_nil]
    rfl

/-- C27 (failing input): the empty target is no branch name and no key of the object store,
yet `checkout` does not fail on it: the path of the branch file is the directory `refs/heads`
itself, which exists, so `HEAD` becomes `ref: refs/heads/` and the working directory is
emptied. A plain name that is neither a branch nor a key of the object store is rejected with
the state untouched, and a plain name that is a branch is taken as the branch whatever the
object store holds. -/
theorem checkout_empty_target_clears (r : Repo) (hnone : r.heads.file_exists "" = false) :
    checkout r "" = some { r with head := "ref: refs/heads/\n", work := [] } ∧
    (∀ target, plain_name target = true → r.heads.file_exists target = false →
      r.objects.file_exists target = false → checkout r target = none) ∧
    (∀ target tip, plain_name target = true → r.heads.open_read target = some tip →
      (checkout r target).map (fun r2 => r2.head) =
        some ("ref: refs/heads/" ++ target ++ "\n")) := by
  have hread : r.heads.open_read "" = none := by
    unfold Files.file_exists at hnone
    unfold Files.open_read
    cases hl : List.lookup "" r.heads with
    | none => rfl
    | some v => rw [hl] at hnone; exact absurd hnone (by simp)
  refine ⟨?_, ?_, ?_⟩
  · unfold checkout
    have hp : r.heads.path_exists "" = true := by simp [Files.path_exists]
    have hl : object_lines r.objects "" = [] := by simp [object_lines]
    simp only [hp, if_true, hread, getline_into, hl, parse_file_list, List.foldl_nil]
    rfl
  · intro target ht hb ho
    have hp : r.heads.path_exists target = false := by rw [path_exists_plain _ _ ht, hb]
    have hq : r.objects.path_exists target = false := by rw [path_exists_plain _ _ ht, ho]
    unfold checkout
    simp only [hp, hq, Bool.false_eq_true, if_false]
  · intro target tip _ htip
    have hp : r.heads.path_exists target = true := by
      unfold Files.path_exists Files.file_exists
      unfold Files.open_read at htip
      rw [htip]
      simp
    unfold checkout
    simp only [hp, if_true, Option.map_some']

/-- Witness of C27 on the repository of the scenario, whose working directory holds `f`. -/
theorem checkout_empty_target_clears_witness :
    ff_repo.heads.file_exists "" = false ∧ ff_repo.objects.file_exists "" = false ∧
    ff_repo.work.open_read "f" = some "hello" ∧
    (checkout ff_repo "" = some { ff_repo with head := "ref: refs/heads/\n", work := [] } ∧
      (∀ target, plain_name target = true → ff_repo.heads.file_exists target = false →
        ff_repo.objects.file_exists target = false → checkout ff_repo target = none) ∧
      (∀ target tip, plain_name target = true → ff_repo.heads.open_read target = some tip →
        (checkout ff_repo target).map (fun r2 => r2.head) =
          some ("ref: refs/heads/" ++ target ++ "\n"))) :=
  ⟨by decide, by decide, by decide, checkout_empty_target_clears ff_repo (by decide)⟩

/-! ## What `find_common_ancestor` returns -/

theorem first_parent_of_lines :
    ∀ lines : List String,
      (if find_parent_line lines ≠ "" then substr_from (find_parent_line lines) 7 else "") =
        (((lines.filter (starts_with · "parent ")).map (substr_from · 7)).head?).getD "" := by
  intro lines
  induction lines with
  | nil => simp [find_parent_line]
  | cons line rest ih =>
    by_cases hp : starts_with line "parent " = true
    · have hne : line ≠ "" := by
        intro h
        rw [h] at hp
        exact absurd hp (by decide)
      simp [find_parent_line, hp, hne]
    · have hp2 : starts_with line "parent " = false := by simpa using hp
      simp only [find_parent_line, hp2, Bool.false_eq_true, if_false, List.filter_cons]
      exact ih

theorem chain_empty (objects : Files) (x : String) : ¬ FirstParentChain objects "" x := by
  intro h
  cases h with
  | start _ hc => exact hc rfl
  | step _ _ _ hc _ _ => exact hc rfl

theorem chain_iff (objects : Files) (c x : String) (hc : c ≠ "") :
    FirstParentChain objects c x ↔
      x = c ∨ FirstParentChain objects
        (if find_parent_line (object_lines objects c) ≠ "" then
          substr_from (find_parent_line (object_lines objects c)) 7 else "") x := by
  rw [first_parent_of_lines]
  constructor
  · intro h
    cases h with
    | start _ _ => exact Or.inl rfl
    | step _ p _ _ hp hch =>
      right
      unfold all_parents at hp
      rw [hp]
      exact hch
  · intro h
    rcases h with h | h
    · rw [h]; exact FirstParentChain.start c hc
    · cases hh : ((List.filter (fun x => starts_with x "parent ") (object_lines objects c)).map
          (fun x => substr_from x 7)).head? with
      | none =>
        rw [hh] at h
        exact absurd h (chain_empty objects x)
      | some p =>
        rw [hh] at h
        exact FirstParentChain.step c p x hc hh h

theorem ancestor_path_chain (objects : Files) :
    ∀ (fuel : Nat) (cur : String) (acc path1 : List String),
      ancestor_path objects fuel cur acc = some path1 →
        ∀ x, x ∈ path1 ↔ x ∈ acc ∨ FirstParentChain objects cur x := by
  intro fuel
  induction fuel with
  | zero =>
    intro cur acc path1 h x
    by_cases hc : cur = ""
    · simp only [ancestor_path, hc, if_true, Option.some.injEq] at h
      rw [← h, hc]
      simp [chain_empty]
    · simp [ancestor_path, hc] at h
  | succ fuel ih =>
    intro cur acc path1 h x
    by_cases hc : cur = ""
    · simp only [ancestor_path, hc, if_true, Option.some.injEq] at h
      rw [← h, hc]
      simp [chain_empty]
    · rw [ancestor_path, if_neg hc] at h
      rw [ih _ _ _ h x, chain_iff objects cur x hc, List.mem_append, List.mem_singleton]
      exact or_assoc

theorem ancestor_search_result (objects : Files) (path1 : List String) :
    ∀ (fuel : Nat) (cur x : String), ancestor_search objects path1 fuel cur = some x →
      (x = cur ∨ x = "") ∧ (cur ≠ "" → (x = cur ↔ cur ∈ path1)) := by
  intro fuel
  induction fuel with
  | zero =>
    intro cur x h
    by_cases hc : cur = ""
    · simp only [ancestor_search, hc, if_true, Option.some.injEq] at h
      exact ⟨Or.inr h.symm, fun hne => absurd hc hne⟩
    · simp [ancestor_search, hc] at h
  | succ fuel ih =>
    intro cur x h
    by_cases hc : cur = ""
    · simp only [ancestor_search, hc, if_true, Option.some.injEq] at h
      exact ⟨Or.inr h.symm, fun hne => absurd hc hne⟩
    · rw [ancestor_search, if_neg hc] at h
      by_cases hm : path1.contains cur = true
      · simp only [hm, if_true, Option.some.injEq] at h
        have hmem : cur ∈ path1 := by simpa using hm
        exact ⟨Or.inl h.symm, fun _ => ⟨fun _ => hmem, fun _ => h.symm⟩⟩
      · simp only [hm, Bool.false_eq_true, if_false] at h
        have hmem : cur ∉ path1 := by simpa using hm
        by_cases hp : find_parent_line (object_lines objects cur) = ""
        · simp only [hp, ne_eq, not_true_eq_false, if_false] at h
          exact ih cur x h
        · simp only [hp, ne_eq, not_false_eq_true, if_true] at h
          obtain ⟨h1, _⟩ := ih "" x h
          have hx : x = "" := by rcases h1 with h1 | h1 <;> exact h1
          refine ⟨Or.inr hx, fun _ => ⟨fun he => ?_, fun hin => absurd hin hmem⟩⟩
          exact absurd (hx.symm.trans he) (fun e => hc e.symm)

/-- C24: when `find_common_ancestor(a, b)` returns, for a non-empty `b`, the result is `b`
itself or the empty string, and it is `b` exactly when `b` lies on the first-parent chain that
starts at `a` (`a` included); so it is never a proper ancestor of `b`. -/
theorem find_common_ancestor_tip_or_empty (objects : Files) (fuel : Nat) (a b x : String)
    (hb : b ≠ "") (h : find_common_ancestor objects fuel a b = some x) :
    (x = b ∨ x = "") ∧ (x = b ↔ FirstParentChain objects a b) := by
  unfold find_common_ancestor at h
  cases hp : ancestor_path objects fuel a [] with
  | none => simp [hp] at h
  | some path1 =>
    rw [hp] at h
    obtain ⟨h1, h2⟩ := ancestor_search_result objects path1 fuel b x h
    refine ⟨h1, (h2 hb).trans ?_⟩
    rw [ancestor_path_chain objects fuel a [] path1 hp b]
    simp

set_option maxRecDepth 100000 in
/-- Witness of C24 in the repository of the scenario: from the second commit, whose first
parent is the first commit, the search for the first commit returns it. -/
theorem find_common_ancestor_tip_or_empty_witness :
    ff_first ≠ "" ∧ find_common_ancestor ff_repo.objects 2 ff_second ff_first = some ff_first ∧
    ((ff_first = ff_first ∨ ff_first = "") ∧
      (ff_first = ff_first ↔ FirstParentChain ff_repo.objects ff_second ff_first)) :=
  ⟨by decide, by decide,
    find_common_ancestor_tip_or_empty ff_repo.objects 2 ff_second ff_first ff_first
      (by decide) (by decide)⟩

/-! ## The deletion loop of `merge` -/

theorem SMap.find_of_mem (m : SMap) (e : String × String) (h : e ∈ m) :
    (m.find e.1).isSome = true := by
  induction m with
  | nil => simp at h
  | cons e1 m ih =>
    obtain ⟨k1, v1⟩ := e1
    simp only [SMap.find, lookup_cons_ite] at ih ⊢
    by_cases hk : e.1 = k1
    · simp [hk]
    · simp only [hk, if_false]
      rcases List.mem_cons.mp h with h | h
      · rw [h] at hk
        exact absurd rfl hk
      · exact ih h

theorem SMap.find_index_self (m : SMap) (k : String) :
    ((SMap.index m k).2.find k).isSome = true := by
  unfold SMap.index
  cases hf : m.find k with
  | none => simp [SMap.find_insert]
  | some v => simp [hf]

theorem merge_step_ancestor_files (st : MergeLoop) (e : String × String) :
    (merge_step st e).ancestor_files = (st.ancestor_files.index e.1).2 := by
  unfold merge_step
  simp only
  split
  · rfl
  · split
    · split <;> rfl
    · split <;> rfl

theorem merge_fold_ancestor_keys (merge_files : SMap) :
    ∀ (l : List (String × String)) (st : MergeLoop),
      (∀ e ∈ l, (merge_files.find e.1).isSome = true) →
      (∀ p, (st.ancestor_files.find p).isSome = true → (merge_files.find p).isSome = true) →
      ∀ p, ((l.foldl merge_step st).ancestor_files.find p).isSome = true →
        (merge_files.find p).isSome = true := by
  intro l
  induction l with
  | nil => intro st _ hinv p hp; exact hinv p hp
  | cons e l ih =>
    intro st hl hinv p hp
    simp only [List.foldl_cons] at hp
    refine ih (merge_step st e) (fun e2 he2 => hl e2 (List.mem_cons_of_mem _ he2)) ?_ p hp
    intro q hq
    rw [merge_step_ancestor_files] at hq
    by_cases hqe : q = e.1
    · rw [hqe]
      exact hl e (List.mem_cons_self _ _)
    · rw [SMap.find_index_ne _ _ _ hqe] at hq
      exact hinv q hq

theorem Files.file_exists_write (d : Files) (n c p : String)
    (h : d.file_exists p = true) : (d.write n c).file_exists p = true := by
  have e : ∀ (d2 : Files), d2.file_exists p = (d2.open_read p).isSome := fun _ => rfl
  rw [e] at h ⊢
  rw [Files.open_read_write]
  split
  · rfl
  · exact h

theorem merge_step_keeps_files (st : MergeLoop) (e : String × String) (p : String)
    (h : st.repo.work.file_exists p = true) :
    (merge_step st e).repo.work.file_exists p = true := by
  unfold merge_step
  simp only
  split
  · exact h
  · split
    · split
      · exact Files.file_exists_write _ _ _ _ h
      · show (add st.repo e.1).work.file_exists p = true
        rw [add_work]
        exact h
    · split
      · exact h
      · exact h

theorem merge_fold_keeps_files (p : String) :
    ∀ (l : List (String × String)) (st : MergeLoop),
      st.repo.work.file_exists p = true →
        (l.foldl merge_step st).repo.work.file_exists p = true := by
  intro l
  induction l with
  | nil => intro st h; exact h
  | cons e l ih =>
    intro st h
    simp only [List.foldl_cons]
    exact ih _ (merge_step_keeps_files st e p h)

theorem delete_fold_idle (merge_files ancestor_files : SMap)
    (hkeys : ∀ p, (ancestor_files.find p).isSome = true → (merge_files.find p).isSome = true) :
    ∀ (l : List (String × String)) (r : Repo),
      l.foldl (delete_step merge_files ancestor_files) r = r := by
  intro l
  induction l with
  | nil => intro r; rfl
  | cons e l ih =>
    intro r
    have hcond : ((merge_files.find e.1).isNone && (ancestor_files.find e.1).isSome) = false := by
      cases ha : (ancestor_files.find e.1).isSome with
      | false => simp
      | true =>
        have hm := hkeys e.1 ha
        cases hf : merge_files.find e.1 with
        | none => rw [hf] at hm; exact absurd hm (by simp)
        | some v => simp
    simp only [List.foldl_cons, delete_step, hcond, Bool.false_eq_true, if_false]
    exact ih r

theorem find_common_ancestor_result (objects : Files) (fuel : Nat) (a b x : String)
    (h : find_common_ancestor objects fuel a b = some x) : x = b ∨ x = "" := by
  unfold find_common_ancestor at h
  cases hp : ancestor_path objects fuel a [] with
  | none => simp [hp] at h
  | some path1 =>
    rw [hp] at h
    exact (ancestor_search_result objects path1 fuel b x h).1

theorem merge_loop_ancestor_keys (r : Repo) (fuel : Nat) (c1 c2 base : String)
    (hbase : find_common_ancestor r.objects fuel c1 c2 = some base) :
    ∀ p, ((merge_loop r c1 c2 base).ancestor_files.find p).isSome = true →
      ((get_files_from_commit r.objects c2).find p).isSome = true := by
  unfold merge_loop
  refine merge_fold_ancestor_keys _ _ _ (fun e he => SMap.find_of_mem _ e he) ?_
  intro p hp
  rcases find_common_ancestor_result r.objects fuel c1 c2 base hbase with hb | hb
  · rw [hb] at hp
    exact hp
  · rw [hb] at hp
    simp [get_files_from_commit, object_lines, parse_files, SMap.find] at hp

/-- C25: `merge` never removes a working file. Whatever `find_common_ancestor` returns, every
path of the base manifest `merge` uses is also a path of the incoming manifest, so the
condition of the deletion loop holds for no path and the loop leaves the repository as the
first loop left it; every file that was in the working directory before `merge` is in it
afterwards, for every state and every branch argument. -/
theorem merge_removes_no_file (now : String) (fuel : Nat) (r : Repo)
    (branch_to_merge : String) :
    (∀ c1 c2 base, find_common_ancestor r.objects fuel c1 c2 = some base →
      (∀ p, ((merge_loop r c1 c2 base).ancestor_files.find p).isSome = true →
        ((get_files_from_commit r.objects c2).find p).isSome = true) ∧
      (merge_loop r c1 c2 base).current_files.foldl
          (delete_step (get_files_from_commit r.objects c2)
            (merge_loop r c1 c2 base).ancestor_files)
          (merge_loop r c1 c2 base).repo =
        (merge_loop r c1 c2 base).repo) ∧
    (∀ x, merge now fuel r branch_to_merge = some x →
      ∀ p, r.work.file_exists p = true → x.1.work.file_exists p = true) := by
  have hfirst : ∀ c1 c2 base, find_common_ancestor r.objects fuel c1 c2 = some base →
      (∀ p, ((merge_loop r c1 c2 base).ancestor_files.find p).isSome = true →
        ((get_files_from_commit r.objects c2).find p).isSome = true) ∧
      (merge_loop r c1 c2 base).current_files.foldl
          (delete_step (get_files_from_commit r.objects c2)
            (merge_loop r c1 c2 base).ancestor_files)
          (merge_loop r c1 c2 base).repo =
        (merge_loop r c1 c2 base).repo := by
    intro c1 c2 base hbase
    have hkeys := merge_loop_ancestor_keys r fuel c1 c2 base hbase
    exact ⟨hkeys, delete_fold_idle _ _ hkeys _ _⟩
  refine ⟨hfirst, ?_⟩
  intro x hm p hp
  unfold merge at hm
  simp only at hm
  split at hm
  · simp only [Option.some.injEq] at hm
    rw [← hm]; exact hp
  · split at hm
    · simp only [Option.some.injEq] at hm
      rw [← hm]; exact hp
    · split at hm
      · simp only [Option.some.injEq] at hm
        rw [← hm]; exact hp
      · split at hm
        · exact absurd hm (by simp)
        · rename_i base hbase
          simp only [Option.some.injEq] at hm
          obtain ⟨_, hidle⟩ := hfirst _ _ base hbase
          have hloop : (merge_loop r (merge_current_hash r)
              (getline_into (r.heads.open_read branch_to_merge) "") base).repo.work.file_exists p
                = true :=
            merge_fold_keeps_files p _ _ hp
          rw [← hm]
          unfold merge_from_base
          simp only [hidle]
          split
          · exact hloop
          · split
            · exact hloop
            · exact hloop

set_option maxRecDepth 100000 in
/-- Witness of C25 on the scenario: `merge topic` returns with a conflict in `f`, and `f` is
still in the working directory. -/
theorem merge_removes_no_file_witness :
    merge now0 2 ff_repo "topic" = some (ff_repo, MergeOutcome.conflicts ["f"]) ∧
    ff_repo.work.file_exists "f" = true ∧
    (ff_repo, MergeOutcome.conflicts ["f"]).1.work.file_exists "f" = true :=
  ⟨by decide, by decide,
    (merge_removes_no_file now0 2 ff_repo "topic").2 _ (by decide) "f" (by decide)⟩

/-! ## The hex rendering `sig2hex` -/

theorem sig2hex_fold_data (sig : List Nat) :
    ∀ (l : List Nat) (acc : String),
      (l.foldl
        (fun hex i =>
          (hex.push (hexChars.getD (((sig.getD i 0) >>> 4) &&& 0xF) '0')).push
            (hexChars.getD ((sig.getD i 0) &&& 0xF) '0')) acc).data =
        acc.data ++ l.flatMap (fun i =>
          [hexChars.getD (((sig.getD i 0) >>> 4) &&& 0xF) '0',
            hexChars.getD ((sig.getD i 0) &&& 0xF) '0']) := by
  intro l
  induction l with
  | nil => intro acc; simp
  | cons i l ih =>
    intro acc
    rw [List.foldl_cons, ih]
    simp [String.push, List.append_assoc]

theorem sig2hex_data (sig : List Nat) :
    (sig2hex sig).data = (List.range 20).flatMap (fun i =>
      [hexChars.getD (((sig.getD i 0) >>> 4) &&& 0xF) '0',
        hexChars.getD ((sig.getD i 0) &&& 0xF) '0']) := by
  unfold sig2hex
  rw [sig2hex_fold_data]
  rfl

theorem flatMap_pair_get (hi lo : Nat → Char) :
    ∀ (l : List Nat) (i : Nat), i < l.length →
      (l.flatMap (fun k => [hi k, lo k]))[2 * i]? = some (hi (l.getD i 0)) ∧
      (l.flatMap (fun k => [hi k, lo k]))[2 * i + 1]? = some (lo (l.getD i 0)) := by
  intro l
  induction l with
  | nil => intro i h; simp at h
  | cons a l ih =>
    intro i h
    cases i with
    | zero => simp
    | succ i =>
      have hi2 : i < l.length := by simpa using h
      obtain ⟨h1, h2⟩ := ih i hi2
      have e1 : 2 * (i + 1) = (2 * i) + 1 + 1 := by ring
      have e2 : 2 * (i + 1) + 1 = (2 * i + 1) + 1 + 1 := by ring
      rw [e2, e1]
      simp only [List.flatMap_cons, List.cons_append, List.nil_append, List.getElem?_cons_succ,
        List.getD_cons_succ]
      exact ⟨h1, h2⟩

theorem hex_decode_flatMap (hi lo : Nat → Char) :
    ∀ l : List Nat, hex_decode (l.flatMap (fun k => [hi k, lo k])) =
      l.map (fun k => hex_value (hi k) * 16 + hex_value (lo k)) := by
  intro l
  induction l with
  | nil => rfl
  | cons a l ih =>
    rw [List.flatMap_cons, List.map_cons]
    show hex_decode (hi a :: lo a :: l.flatMap (fun k => [hi k, lo k])) = _
    rw [hex_decode, ih]

set_option maxRecDepth 100000 in
theorem nibble_round_trip : ∀ b, b < 256 →
    hex_value (hexChars.getD ((b >>> 4) &&& 0xF) '0') * 16 +
      hex_value (hexChars.getD (b &&& 0xF) '0') = b := by
  decide

set_option maxRecDepth 100000 in
theorem nibble_values : ∀ b, b < 256 →
    hexChars[b / 16]? = some (hexChars.getD ((b >>> 4) &&& 0xF) '0') ∧
    hexChars[b % 16]? = some (hexChars.getD (b &&& 0xF) '0') := by
  decide

theorem list_eq_map_getD (l : List Nat) :
    l = (List.range l.length).map (fun i => l.getD i 0) := by
  apply List.ext_getElem
  · simp
  · intro i h1 h2
    simp [List.getD_eq_getElem?_getD, h1]

theorem getD_lt (sig : List Nat) (hbytes : ∀ b ∈ sig, b < 256) (i : Nat) :
    sig.getD i 0 < 256 := by
  rw [List.getD_eq_getElem?_getD]
  cases h : sig[i]? with
  | none => simp
  | some b =>
    obtain ⟨hlt, hb⟩ := List.getElem?_eq_some_iff.mp h
    exact hbytes b (hb ▸ List.getElem_mem hlt)

theorem hex_decode_sig2hex (sig : List Nat) (hlen : sig.length = 20)
    (hbytes : ∀ b ∈ sig, b < 256) : hex_decode (sig2hex sig).data = sig := by
  rw [sig2hex_data, hex_decode_flatMap]
  conv_rhs => rw [list_eq_map_getD sig, hlen]
  apply List.map_congr_left
  intro i _
  exact nibble_round_trip _ (getD_lt sig hbytes i)

/-- C22: for every 20-byte signature `sig2hex` returns 40 characters, each one of
`0123456789abcdef`; the characters at `2i` and `2i+1` are the digits of the high and the low
nibble of byte `i`; decoding the string gives back the 20 bytes, so two signatures with the
same rendering are equal. -/
theorem sig2hex_round_trip (sig : List Nat) (hlen : sig.length = 20)
    (hbytes : ∀ b ∈ sig, b < 256) :
    (sig2hex sig).data.length = 40 ∧
    (∀ c ∈ (sig2hex sig).data, c ∈ hexChars) ∧
    (∀ i, i < 20 →
      (sig2hex sig).data[2 * i]? = hexChars[sig.getD i 0 / 16]? ∧
      (sig2hex sig).data[2 * i + 1]? = hexChars[sig.getD i 0 % 16]?) ∧
    hex_decode (sig2hex sig).data = sig ∧
    ∀ sig2 : List Nat, sig2.length = 20 → (∀ b ∈ sig2, b < 256) →
      sig2hex sig2 = sig2hex sig → sig2 = sig := by
  refine ⟨sig2hex_length sig, sig2hex_chars sig, ?_, hex_decode_sig2hex sig hlen hbytes, ?_⟩
  · intro i hi
    obtain ⟨n1, n2⟩ := nibble_values _ (getD_lt sig hbytes i)
    have hr : (List.range 20).getD i 0 = i := by
      rw [List.getD_eq_getElem?_getD, List.getElem?_range hi]
      rfl
    obtain ⟨g1, g2⟩ := flatMap_pair_get
      (fun k => hexChars.getD (((sig.getD k 0) >>> 4) &&& 0xF) '0')
      (fun k => hexChars.getD ((sig.getD k 0) &&& 0xF) '0') (List.range 20) i
      (by simpa using hi)
    rw [sig2hex_data, g1, g2, n1, n2, hr]
    exact ⟨rfl, rfl⟩
  · intro sig2 hlen2 hbytes2 heq
    rw [← hex_decode_sig2hex sig2 hlen2 hbytes2, heq, hex_decode_sig2hex sig hlen hbytes]

set_option maxRecDepth 100000 in
/-- Witness of C22: the digest of "hello". -/
theorem sig2hex_round_trip_witness :
    (scenario_hash "hello").length = 20 ∧ (∀ b ∈ scenario_hash "hello", b < 256) ∧
    ((sig2hex (scenario_hash "hello")).data.length = 40 ∧
      (∀ c ∈ (sig2hex (scenario_hash "hello")).data, c ∈ hexChars) ∧
      (∀ i, i < 20 →
        (sig2hex (scenario_hash "hello")).data[2 * i]? =
          hexChars[(scenario_hash "hello").getD i 0 / 16]? ∧
        (sig2hex (scenario_hash "hello")).data[2 * i + 1]? =
          hexChars[(scenario_hash "hello").getD i 0 % 16]?) ∧
      hex_decode (sig2hex (scenario_hash "hello")).data = scenario_hash "hello" ∧
      ∀ sig2 : List Nat, sig2.length = 20 → (∀ b ∈ sig2, b < 256) →
        sig2hex sig2 = sig2hex (scenario_hash "hello") → sig2 = scenario_hash "hello") :=
  ⟨by decide, by decide,
    sig2hex_round_trip (scenario_hash "hello") (by decide) (by decide)⟩

/-! ## The digest `hash` -/

theorem set_bytes (l : List Nat) (i v : Nat) (hl : ∀ b ∈ l, b < 256) (hv : v < 256) :
    ∀ b ∈ l.set i v, b < 256 := by
  intro b hb
  rcases List.mem_or_eq_of_mem_set hb with h | h
  · exact hl b h
  · rw [h]; exact hv

theorem and_byte (n : Nat) : n &&& 0xFF < 256 :=
  Nat.lt_of_le_of_lt Nat.and_le_right (by decide)

theorem sig_fold_bytes (h0 h1 h2 h3 h4 : Nat) :
    ∀ (l : List Nat) (sig0 : List Nat), (sig0.length = 20 ∧ ∀ b ∈ sig0, b < 256) →
      (l.foldl
        (fun sig i =>
          ((((sig.set i ((h0 >>> (24 - 8 * i)) &&& 0xFF)).set (i + 4)
            ((h1 >>> (24 - 8 * i)) &&& 0xFF)).set (i + 8)
            ((h2 >>> (24 - 8 * i)) &&& 0xFF)).set (i + 12)
            ((h3 >>> (24 - 8 * i)) &&& 0xFF)).set (i + 16)
            ((h4 >>> (24 - 8 * i)) &&& 0xFF))
        sig0).length = 20 ∧
      ∀ b ∈ (l.foldl
        (fun sig i =>
          ((((sig.set i ((h0 >>> (24 - 8 * i)) &&& 0xFF)).set (i + 4)
            ((h1 >>> (24 - 8 * i)) &&& 0xFF)).set (i + 8)
            ((h2 >>> (24 - 8 * i)) &&& 0xFF)).set (i + 12)
            ((h3 >>> (24 - 8 * i)) &&& 0xFF)).set (i + 16)
            ((h4 >>> (24 - 8 * i)) &&& 0xFF))
        sig0), b < 256 := by
  intro l
  induction l with
  | nil => intro sig0 h; exact h
  | cons i l ih =>
    intro sig0 h
    rw [List.foldl_cons]
    refine ih _ ⟨?_, ?_⟩
    · simp only [List.length_set]
      exact h.1
    · exact set_bytes _ _ _ (set_bytes _ _ _ (set_bytes _ _ _ (set_bytes _ _ _
        (set_bytes _ _ _ h.2 (and_byte _)) (and_byte _)) (and_byte _)) (and_byte _)) (and_byte _)

theorem hash_bs_bytes (input : List Nat) :
    (hash_bs input).length = 20 ∧ ∀ b ∈ hash_bs input, b < 256 := by
  unfold hash_bs
  exact sig_fold_bytes _ _ _ _ _ _ _ ⟨List.length_replicate _ _, fun b hb => by
    rw [List.eq_of_mem_replicate hb]; decide⟩

set_option maxRecDepth 1000000 in
set_option maxHeartbeats 4000000 in
theorem sha1_empty : sig2hex (hash "") = "da39a3ee5e6b4b0d3255bfef95601890afd80709" := by
  decide

set_option maxRecDepth 1000000 in
set_option maxHeartbeats 4000000 in
theorem sha1_abc : sig2hex (hash "abc") = "a9993e364706816aba3e25717850c26c9cd0d89d" := by
  decide

set_option maxRecDepth 1000000 in
set_option maxHeartbeats 4000000 in
theorem sha1_two_blocks :
    sig2hex (hash "abcdbcdecdefdefgefghfghighijhijkijkljklmklmnlmnomnopnopq") =
      "84983e441c3bd26ebaae4aa1f95129e5e54670f1" := by
  decide

/-- C23: `hash` returns 20 bytes for every input, and rendered with `sig2hex` it gives the
SHA-1 test vectors: da39a3ee... for the empty string, a9993e36... for "abc", and 84983e44...
for the 56-byte message, whose padding takes a second block. -/
theorem hash_sha1_test_vectors :
    (∀ input : List Nat, (hash_bs input).length = 20 ∧ ∀ b ∈ hash_bs input, b < 256) ∧
    (∀ message : String, (hash message).length = 20) ∧
    sig2hex (hash "") = "da39a3ee5e6b4b0d3255bfef95601890afd80709" ∧
    sig2hex (hash "abc") = "a9993e364706816aba3e25717850c26c9cd0d89d" ∧
    (string_bytes "abcdbcdecdefdefgefghfghighijhijkijkljklmklmnlmnomnopnopq").length = 56 ∧
    sig2hex (hash "abcdbcdecdefdefgefghfghighijhijkijkljklmklmnlmnomnopnopq") =
      "84983e441c3bd26ebaae4aa1f95129e5e54670f1" :=
  ⟨hash_bs_bytes, fun message => (hash_bs_bytes (string_bytes message)).1, sha1_empty,
    sha1_abc, by decide, sha1_two_blocks⟩

/-! ## The file list of a merge commit -/

set_option maxRecDepth 1000000 in
set_option maxHeartbeats 4000000 in
theorem hash_unstored_record : hash unstored_record = merge_scenario_hash unstored_record := by
  decide

theorem hash_eq_merge_scenario_hash : hash = merge_scenario_hash := by
  funext message
  by_cases h : message = unstored_record
  · rw [h]; exact hash_unstored_record
  · simp only [merge_scenario_hash, h, if_false]
    rw [hash_eq_scenario_hash]

set_option maxRecDepth 100000 in
theorem unstored_step_merge :
    merge now0 2 unstored_repo "topic" =
      some (unstored_merged, MergeOutcome.merged unstored_merge) := by
  unfold merge merge_from_base merge_record calculate_file_sha1
  rw [hash_eq_merge_scenario_hash]
  decide

set_option maxRecDepth 100000 in
/-- C26 (failing input): in `unstored_repo` the working file `f` holds "world", which was never
staged. `merge topic` commits a merge whose file list ends with the line binding `f` to the
digest of "world"; the object store holds no object under that digest. -/
theorem merge_lists_unstored_digest :
    (∀ fuel, 2 ≤ fuel → merge now0 fuel unstored_repo "topic" =
      some (unstored_merged, MergeOutcome.merged unstored_merge)) ∧
    unstored_merged.objects.open_read unstored_merge = some unstored_record ∧
    (getlines unstored_record).getLast? = some (blob_world ++ " f") ∧
    (get_files_from_commit unstored_merged.objects unstored_merge).find "f" = some blob_world ∧
    unstored_merged.work.open_read "f" = some "world" ∧
    calculate_file_sha1 "world" = blob_world ∧
    unstored_merged.objects.file_exists blob_world = false := by
  refine ⟨fun fuel hfuel => ?_, by decide, by decide, by decide, by decide, ?_, by decide⟩
  · obtain ⟨k, rfl⟩ := Nat.exists_eq_add_of_le hfuel
    exact merge_mono now0 2 unstored_repo "topic" _ unstored_step_merge k
  · unfold calculate_file_sha1
    rw [hash_eq_scenario_hash]
    decide

end MiniGit
